import Mathlib

/-!
Shallow embedding of the Go rules engine (`go_game/engine/`): board,
group/liberty analysis, move rules, game state machine, territory scoring
and history replay, together with proofs of the specified properties.

Machine integers are modelled as `Int` (Python `int` is unbounded);
fallible code returns `Except`; Python `set`s become `Finset`s.
-/

namespace GoGame

/-- `Color` from `types.py`: the two stone colors. -/
inductive Color where
  | black
  | white
deriving DecidableEq, Repr

/-- `Color.opponent` from `types.py`. -/
def Color.opponent : Color → Color
  | .black => .white
  | .white => .black

/-- `Point` from `types.py`: an integer (row, col) pair. -/
structure Point where
  row : Int
  col : Int
deriving DecidableEq, Repr

/-- `iter_neighbors(p, size)` from `types.py`, as a list: the up to four
orthogonal neighbors kept inside `[0, size)` by the four guards. -/
def iter_neighbors (p : Point) (size : Int) : List Point :=
  (if 0 < p.row then [⟨p.row - 1, p.col⟩] else []) ++
  (if p.row < size - 1 then [⟨p.row + 1, p.col⟩] else []) ++
  (if 0 < p.col then [⟨p.row, p.col - 1⟩] else []) ++
  (if p.col < size - 1 then [⟨p.row, p.col + 1⟩] else [])

/-- The in-bounds predicate `0 <= row,col < size` used by `_check_bounds`. -/
def inBounds (size : Int) (p : Point) : Prop :=
  0 ≤ p.row ∧ p.row < size ∧ 0 ≤ p.col ∧ p.col < size

instance (size : Int) (p : Point) : Decidable (inBounds size p) := by
  unfold inBounds; infer_instance

/-- All in-bounds points of a `size`-sized board, as a finite set. -/
def boardFinset (size : Int) : Finset Point :=
  ((Finset.range size.toNat) ×ˢ (Finset.range size.toNat)).image
    (fun rc => ⟨(rc.1 : Int), (rc.2 : Int)⟩)

/-- The row-major listing `for r in range(size): for c in range(size)`
used by `legal_moves` and `evaluate_territory`. -/
def rowMajorPoints (size : Int) : List Point :=
  (List.range size.toNat).flatMap (fun (r : Nat) =>
    (List.range size.toNat).map (fun (c : Nat) => (⟨(r : Int), (c : Int)⟩ : Point)))

/-- A stone is an optional color (`Stone = Optional[Color]` in `board.py`). -/
abbrev Stone := Option Color

/-- Python sequence indexing `l[i]`: non-negative indexes read from the
front, indexes in `[-len l, -1]` wrap around to `l[len l + i]`, anything
else is an `IndexError` (returned as `none`). -/
def pyIndex {α : Type} (l : List α) (i : Int) : Option α :=
  if 0 ≤ i ∧ i < l.length then l[i.toNat]?
  else if -(l.length : Int) ≤ i ∧ i < 0 then l[(i + l.length).toNat]?
  else none

/-- Python list element assignment `l[i] = a`, with the same index
semantics as `pyIndex`.  A genuinely out-of-range index would raise
`IndexError` in Python; that case is modelled as the identity and is
unreachable from the engine paths, which bounds-check first. -/
def pySet {α : Type} (l : List α) (i : Int) (a : α) : List α :=
  if 0 ≤ i ∧ i < l.length then l.set i.toNat a
  else if -(l.length : Int) ≤ i ∧ i < 0 then l.set (i + l.length).toNat a
  else l

/-- `Board` from `board.py`: a size and a grid of rows of stones. -/
structure Board where
  size : Int
  grid : List (List Stone)
deriving DecidableEq, Repr

/-- The data-model invariant of `Board`: a non-negative size and a
`size × size` grid. -/
def Board.Valid (b : Board) : Prop :=
  0 ≤ b.size ∧ b.grid.length = b.size.toNat ∧
    ∀ row ∈ b.grid, row.length = b.size.toNat

instance (b : Board) : Decidable b.Valid := by
  unfold Board.Valid; infer_instance

/-- The all-empty `size × size` grid built by `Board.empty`. -/
def Board.emptyBoard (size : Int) : Board :=
  ⟨size, List.replicate size.toNat (List.replicate size.toNat none)⟩

/-- Exceptions raised by engine code: the four `GoError` subclasses of
`errors.py`, used for move rejection. -/
inductive GoError where
  | outOfBounds
  | occupiedPoint
  | suicideMove
  | koViolation
deriving DecidableEq, Repr

/-- Any exception the modelled code can raise: a `GoError` from
`errors.py`, or the Python builtin `ValueError` raised by `Board.empty`. -/
inductive EngineExn where
  | go (e : GoError)
  | valueError
deriving DecidableEq, Repr

/-- Whether an exception belongs to the engine's `GoError` taxonomy. -/
def EngineExn.isGoError : EngineExn → Bool
  | .go _ => true
  | .valueError => false

instance {ε α : Type} [DecidableEq ε] [DecidableEq α] :
    DecidableEq (Except ε α) := fun x y =>
  match x, y with
  | .ok a, .ok b =>
    if h : a = b then isTrue (by rw [h])
    else isFalse (by intro hc; injection hc; contradiction)
  | .error a, .error b =>
    if h : a = b then isTrue (by rw [h])
    else isFalse (by intro hc; injection hc; contradiction)
  | .ok _, .error _ => isFalse fun hc => Except.noConfusion hc
  | .error _, .ok _ => isFalse fun hc => Except.noConfusion hc

/-- `Board.empty` from `board.py`: raises `ValueError` when `size < 2`,
otherwise returns the all-empty board. -/
def Board.empty (size : Int) : Except EngineExn Board :=
  if size < 2 then .error .valueError
  else .ok (Board.emptyBoard size)

/-- `Board.get` from `board.py`: `self.grid[p.row][p.col]`, with Python
indexing (no bounds check; negative indices wrap).  An `IndexError`
(index outside `[-size, size)`) is conflated with an empty cell; the
engine never reads such an index. -/
def Board.get (b : Board) (p : Point) : Stone :=
  match pyIndex b.grid p.row with
  | none => none
  | some row => (pyIndex row p.col).join

/-- The shared cell-assignment step of `Board.place` / `Board.remove_many`:
`new_rows[p.row][p.col] = s` with Python indexing. -/
def Board.setCell (b : Board) (p : Point) (s : Stone) : Board :=
  match pyIndex b.grid p.row with
  | none => b
  | some row => ⟨b.size, pySet b.grid p.row (pySet row p.col s)⟩

/-- `Board.place` from `board.py`: a new board with `color` at `p`. -/
def Board.place (b : Board) (p : Point) (color : Color) : Board :=
  b.setCell p (some color)

/-- `Board.remove_many` from `board.py`: a new board with every listed
point cleared. -/
def Board.remove_many (b : Board) (ps : List Point) : Board :=
  ps.foldl (fun acc q => acc.setCell q none) b

/-- The signature type: the full grid contents, as returned by
`Board.signature`. -/
abbrev Signature := List (List Stone)

/-- `Board.signature` from `board.py`: returns the grid itself, used for
ko comparison. -/
def Board.signature (b : Board) : Signature := b.grid

/-- Ascending `(row, col)` order on points, the sort key used by
`apply_move` for `captured_points`. -/
def pointLe (p q : Point) : Prop :=
  p.row < q.row ∨ (p.row = q.row ∧ p.col ≤ q.col)

instance (p q : Point) : Decidable (pointLe p q) := by
  unfold pointLe; infer_instance

instance : IsTrans Point pointLe where
  trans := by
    rintro ⟨a, b⟩ ⟨c, d⟩ ⟨e, f⟩ h1 h2
    rcases h1 with h1 | ⟨h1, h1'⟩ <;> rcases h2 with h2 | ⟨h2, h2'⟩ <;>
      simp only [pointLe] at * <;> omega

instance : IsAntisymm Point pointLe where
  antisymm := by
    rintro ⟨a, b⟩ ⟨c, d⟩ h1 h2
    simp only [pointLe] at *
    have : a = c ∧ b = d := by omega
    simp [this.1, this.2]

instance : IsTotal Point pointLe where
  total := by
    rintro ⟨a, b⟩ ⟨c, d⟩
    simp only [pointLe]
    omega

/-- The `sorted(captured_points, key=lambda x: (x.row, x.col))` of
`apply_move`: the unique ascending listing of a set of points.  (Defined
by lifting insertion sort to the underlying multiset; since the keys are
distinct and the order is total, the result does not depend on the
sorting algorithm.) -/
def sortPoints (s : Finset Point) : List Point :=
  Quot.liftOn s.val (fun l => List.insertionSort pointLe l)
    (fun l1 l2 h => List.eq_of_perm_of_sorted
      ((List.perm_insertionSort pointLe l1).trans
        ((Quotient.exact (Quotient.sound h)).trans
          (List.perm_insertionSort pointLe l2).symm))
      (List.sorted_insertionSort pointLe l1)
      (List.sorted_insertionSort pointLe l2))

theorem sortPoints_eq_insertionSort (l : List Point) (h : l.Nodup) :
    sortPoints ⟨(l : Multiset Point), h⟩ = List.insertionSort pointLe l := rfl

theorem mem_sortPoints {s : Finset Point} {x : Point} :
    x ∈ sortPoints s ↔ x ∈ s := by
  rcases s with ⟨val, nodup⟩
  induction val using Quot.inductionOn with
  | h l =>
    show x ∈ List.insertionSort pointLe l ↔ _
    rw [(List.perm_insertionSort pointLe l).mem_iff]
    rfl

theorem length_sortPoints (s : Finset Point) :
    (sortPoints s).length = s.card := by
  rcases s with ⟨val, nodup⟩
  induction val using Quot.inductionOn with
  | h l => exact (List.perm_insertionSort pointLe l).length_eq

theorem nodup_sortPoints (s : Finset Point) : (sortPoints s).Nodup := by
  rcases s with ⟨val, nodup⟩
  induction val using Quot.inductionOn with
  | h l => exact ((List.perm_insertionSort pointLe l).nodup_iff).mpr nodup

theorem sorted_sortPoints (s : Finset Point) :
    (sortPoints s).Sorted pointLe := by
  rcases s with ⟨val, nodup⟩
  induction val using Quot.inductionOn with
  | h l => exact List.sorted_insertionSort pointLe l

/-- `MoveResult` from `rules.py`. -/
structure MoveResult where
  board : Board
  captured : Nat
  captured_points : List Point
deriving DecidableEq, Repr

/-- The worklist loop of `_group_and_liberties` from `rules.py`: pop a
point; if unseen, add it to the group, record its empty neighbors as
liberties, and push its same-colored unseen neighbors.  `fuel` bounds the
number of iterations; the engine always supplies enough fuel for the
stack to drain (proved below). -/
def galLoop (b : Board) (color : Color) :
    Nat → List Point → Finset Point → Finset Point → Finset Point × Finset Point
  | 0, _, group, libs => (group, libs)
  | _ + 1, [], group, libs => (group, libs)
  | fuel + 1, p :: stack, group, libs =>
    if p ∈ group then galLoop b color fuel stack group libs
    else
      let group' := insert p group
      let libs' := libs ∪
        ((iter_neighbors p b.size).filter (fun nb => b.get nb = none)).toFinset
      let stack' :=
        ((iter_neighbors p b.size).filter
          (fun nb => b.get nb = some color ∧ nb ∉ group')) ++ stack
      galLoop b color fuel stack' group' libs'

/-- Fuel that always drains the worklist: each iteration pops one entry,
and at most `4 * size²` entries are ever pushed on top of the seed. -/
def galFuel (b : Board) : Nat :=
  5 * b.size.toNat * b.size.toNat + 1

/-- `_group_and_liberties` from `rules.py`: the chain containing `start`
and its liberty set.  The Python code asserts a stone is present at
`start`; the `none` case returns the empty sets and is never reached by
the engine. -/
def group_and_liberties (b : Board) (start : Point) :
    Finset Point × Finset Point :=
  match b.get start with
  | none => (∅, ∅)
  | some color => galLoop b color (galFuel b) [start] ∅ ∅

/-- `_capturable_enemy_groups` from `rules.py`: the union of the
zero-liberty enemy chains seeded at neighbors of the placed stone. -/
def capturable_enemy_groups (b : Board) (placed_at : Point) (color : Color) :
    Finset Point :=
  (iter_neighbors placed_at b.size).foldl
    (fun acc nb =>
      if b.get nb = some color.opponent then
        let gl := group_and_liberties b nb
        if gl.2.card = 0 then acc ∪ gl.1 else acc
      else acc) ∅

/-- `apply_move` from `rules.py`: bounds gate, occupancy gate, placement,
capture resolution, suicide gate, simple-ko gate. -/
def apply_move (board : Board) (p : Point) (color : Color)
    (ko_forbidden_signature : Option Signature := none) :
    Except GoError MoveResult :=
  if ¬ inBounds board.size p then .error .outOfBounds
  else if board.get p ≠ none then .error .occupiedPoint
  else
    let b1 := board.place p color
    let captured_points := capturable_enemy_groups b1 p color
    let b2 := if captured_points.Nonempty
      then b1.remove_many (sortPoints captured_points) else b1
    let gl := group_and_liberties b2 p
    if gl.2.card = 0 then .error .suicideMove
    else if ko_forbidden_signature = some b2.signature then
      .error .koViolation
    else .ok ⟨b2, captured_points.card, sortPoints captured_points⟩

/-- `TerritoryResult` from `scoring.py`. -/
structure TerritoryResult where
  territory_black : Nat
  territory_white : Nat
  neutral : Nat
deriving DecidableEq, Repr

/-- `ScoreBreakdown` from `scoring.py`. -/
structure ScoreBreakdown where
  captures_black : Nat
  captures_white : Nat
  territory_black : Nat
  territory_white : Nat
deriving DecidableEq, Repr

/-- `ScoreBreakdown.score_black`: territory plus captures. -/
def ScoreBreakdown.score_black (s : ScoreBreakdown) : Nat :=
  s.territory_black + s.captures_black

/-- `ScoreBreakdown.score_white`: territory plus captures. -/
def ScoreBreakdown.score_white (s : ScoreBreakdown) : Nat :=
  s.territory_white + s.captures_white

/-- `_region_owner` from `scoring.py`: the set of stone colors bordering
the region; owned by a color only when that set is exactly a singleton. -/
def region_owner (b : Board) (region : Finset Point) : Option Color :=
  let bordering : Finset Color :=
    region.biUnion (fun p =>
      ((iter_neighbors p b.size).filterMap (fun nb => b.get nb)).toFinset)
  if bordering = {Color.black} then some Color.black
  else if bordering = {Color.white} then some Color.white
  else none

/-- The inner flood-fill loop of `evaluate_territory` from `scoring.py`:
pop a point; skip it when already visited or occupied, otherwise add it
to the shared visited set and to the region, and push its unvisited
empty neighbors. -/
def territoryFill (b : Board) :
    Nat → List Point → Finset Point → Finset Point → Finset Point × Finset Point
  | 0, _, visited, region => (visited, region)
  | _ + 1, [], visited, region => (visited, region)
  | fuel + 1, cur :: stack, visited, region =>
    if cur ∈ visited then territoryFill b fuel stack visited region
    else if b.get cur ≠ none then territoryFill b fuel stack visited region
    else
      let visited' := insert cur visited
      let region' := insert cur region
      let stack' :=
        ((iter_neighbors cur b.size).filter
          (fun nb => nb ∉ visited' ∧ b.get nb = none)) ++ stack
      territoryFill b fuel stack' visited' region'

/-- One step of `evaluate_territory`'s outer row-major scan: skip visited
or occupied points, otherwise flood-fill the empty region and credit its
size to the owner determined by `_region_owner`. -/
def territoryStep (b : Board) (acc : Finset Point × Nat × Nat × Nat)
    (p : Point) : Finset Point × Nat × Nat × Nat :=
  if p ∈ acc.1 then acc
  else if b.get p ≠ none then acc
  else
    let vr := territoryFill b (galFuel b) [p] acc.1 ∅
    match region_owner b vr.2 with
    | some .black => (vr.1, acc.2.1 + vr.2.card, acc.2.2.1, acc.2.2.2)
    | some .white => (vr.1, acc.2.1, acc.2.2.1 + vr.2.card, acc.2.2.2)
    | none => (vr.1, acc.2.1, acc.2.2.1, acc.2.2.2 + vr.2.card)

/-- `evaluate_territory` from `scoring.py`: flood-fill all empty regions
in row-major order and tally black, white and neutral points. -/
def evaluate_territory (b : Board) : TerritoryResult :=
  let res := (rowMajorPoints b.size).foldl (territoryStep b) (∅, 0, 0, 0)
  ⟨res.2.1, res.2.2.1, res.2.2.2⟩

/-- `MoveRecord` from `game_state.py`: one ply of history (`point = none`
is a pass). -/
structure MoveRecord where
  color : Color
  point : Option Point
  captured : Nat
deriving DecidableEq, Repr

/-- `GameState` from `game_state.py`. -/
structure GameState where
  board : Board
  next_player : Color
  captures_black : Nat
  captures_white : Nat
  ko_forbidden_signature : Option Signature := none
  last_move : Option Point := none
  consecutive_passes : Nat := 0
  is_over : Bool := false
  history : List MoveRecord := []
deriving DecidableEq, Repr

/-- `GameState.new` from `game_state.py`.  The Python code calls
`Board.empty(size)`, which raises `ValueError` for `size < 2`; here the
grid is built directly, and the `size < 2` failure is carried by
`Board.empty` (every claim about `new` concerns sizes `≥ 2`). -/
def GameState.new (size : Int := 19) (next_player : Color := .black) :
    GameState :=
  { board := Board.emptyBoard size
    next_player := next_player
    captures_black := 0
    captures_white := 0
    ko_forbidden_signature := none
    last_move := none
    consecutive_passes := 0
    is_over := false
    history := [] }

/-- `GameState.play` from `game_state.py`: no-op on a terminal state;
otherwise delegates to `apply_move` with the stored ko signature,
updates capture tallies, records the pre-move signature as the new ko
memory exactly when one stone was captured, and appends the record. -/
def GameState.play (s : GameState) (p : Point) : Except GoError GameState :=
  if s.is_over then .ok s
  else
    let prev_signature := s.board.signature
    match apply_move s.board p s.next_player s.ko_forbidden_signature with
    | .error e => .error e
    | .ok res =>
      let cb := if s.next_player = .black
        then s.captures_black + res.captured else s.captures_black
      let cw := if s.next_player = .black
        then s.captures_white else s.captures_white + res.captured
      .ok
        { board := res.board
          next_player := s.next_player.opponent
          captures_black := cb
          captures_white := cw
          ko_forbidden_signature :=
            if res.captured = 1 then some prev_signature else none
          last_move := some p
          consecutive_passes := 0
          is_over := false
          history := s.history ++ [⟨s.next_player, some p, res.captured⟩] }

/-- `GameState.pass_turn` from `game_state.py`: no-op on a terminal
state; otherwise bumps the pass counter (two consecutive passes end the
game), clears ko memory and the last move, and appends a pass record. -/
def GameState.pass_turn (s : GameState) : GameState :=
  if s.is_over then s
  else
    let new_passes := s.consecutive_passes + 1
    { board := s.board
      next_player := s.next_player.opponent
      captures_black := s.captures_black
      captures_white := s.captures_white
      ko_forbidden_signature := none
      last_move := none
      consecutive_passes := new_passes
      is_over := decide (2 ≤ new_passes)
      history := s.history ++ [⟨s.next_player, none, 0⟩] }

/-- `GameState.legal_moves` from `game_state.py`: empty when terminal;
otherwise the row-major empty points where `apply_move` succeeds. -/
def GameState.legal_moves (s : GameState) : List Point :=
  if s.is_over then []
  else (rowMajorPoints s.board.size).filter (fun p =>
    s.board.get p = none ∧
      (apply_move s.board p s.next_player s.ko_forbidden_signature).isOk)

/-- `GameState.score` from `game_state.py`: capture counts combined with
`evaluate_territory` of the current board. -/
def GameState.score (s : GameState) : ScoreBreakdown :=
  let terr := evaluate_territory s.board
  { captures_black := s.captures_black
    captures_white := s.captures_white
    territory_black := terr.territory_black
    territory_white := terr.territory_white }

/-- The session record produced by `game_to_dict` in `serialization.py`.
The JSON encoding of colors (as `"B"`/`"W"` strings) and of points (as
`{"row", "col"}` objects) is a bijection inverted on load and is elided;
the record keeps the decoded fields. -/
structure SessionData where
  version : Nat
  board_size : Int
  ai_enabled : Bool
  ai_color : Color
  history : List MoveRecord
deriving DecidableEq, Repr

/-- `game_to_dict` from `serialization.py`. -/
def game_to_dict (state : GameState) (ai_enabled : Bool) (ai_color : Color)
    (board_size : Int) : SessionData :=
  { version := 1
    board_size := board_size
    ai_enabled := ai_enabled
    ai_color := ai_color
    history := state.history }

/-- The replay loop of `dict_to_game` from `serialization.py`: for each
record, first pass when the recorded mover is not the state's next
player, then replay the record (pass or play). -/
def replayRecords : GameState → List MoveRecord → Except GoError GameState
  | state, [] => .ok state
  | state, m :: rest =>
    let state1 := if state.next_player ≠ m.color then state.pass_turn else state
    match m.point with
    | none => replayRecords state1.pass_turn rest
    | some pt =>
      match state1.play pt with
      | .ok s2 => replayRecords s2 rest
      | .error e => .error e

/-- `dict_to_game` from `serialization.py`: replay the persisted history
from `GameState.new(size)`. -/
def dict_to_game (data : SessionData) :
    Except GoError (GameState × Bool × Color × Int) :=
  match replayRecords (GameState.new data.board_size) data.history with
  | .ok state => .ok (state, data.ai_enabled, data.ai_color, data.board_size)
  | .error e => .error e

/-- The states reachable from `s0` by `play`/`pass_turn` transitions. -/
inductive Reachable (s0 : GameState) : GameState → Prop
  | refl : Reachable s0 s0
  | play (s : GameState) (p : Point) (s' : GameState) :
      Reachable s0 s → s.play p = .ok s' → Reachable s0 s'
  | pass (s : GameState) : Reachable s0 s → Reachable s0 s.pass_turn

/-! ## Specification-side notions (the spec's words, for comparison)

These definitions follow the specification's language — maximal
4-connected chains, liberties, empty regions, border colors — and are
the yardstick the DFS implementations above are measured against. -/

/-- One step between 4-adjacent same-colored stones (spec §4.2). -/
def SpecStep (b : Board) (c : Color) (x y : Point) : Prop :=
  y ∈ iter_neighbors x b.size ∧ b.get y = some c

/-- `q` belongs to the maximal 4-connected chain of color `c` through
`s` (spec: "maximal set of same-colored stones connected via shared
edges"). -/
def SpecChain (b : Board) (c : Color) (s q : Point) : Prop :=
  Relation.ReflTransGen (SpecStep b c) s q

/-- `q` is a liberty of the chain through `s`: an empty point adjacent
to some chain member (spec: "an empty point adjacent to a stone or
chain"). -/
def SpecChainLiberty (b : Board) (c : Color) (s q : Point) : Prop :=
  b.get q = none ∧ ∃ r, SpecChain b c s r ∧ q ∈ iter_neighbors r b.size

/-- The chain through `s` has zero liberties. -/
def SpecDead (b : Board) (c : Color) (s : Point) : Prop :=
  ∀ q, ¬ SpecChainLiberty b c s q

/-- One step between 4-adjacent empty points (spec §4.4 flood fill). -/
def SpecEmptyStep (b : Board) (x y : Point) : Prop :=
  y ∈ iter_neighbors x b.size ∧ b.get y = none

/-- `q` belongs to the maximal 4-connected empty region through `p`. -/
def SpecEmptyReach (b : Board) (p q : Point) : Prop :=
  Relation.ReflTransGen (SpecEmptyStep b) p q

/-- The set of stone colors adjacent to the empty region through `p`
(spec: "collect the set of distinct stone colors found on any neighbor
of any region point"). -/
def specBorderColors (b : Board) (p : Point) : Set Color :=
  {c | ∃ r, SpecEmptyReach b p r ∧ ∃ t ∈ iter_neighbors r b.size, b.get t = some c}

/-! ## Geometry lemmas about neighbors and board points -/

theorem mem_iter_neighbors {p q : Point} {size : Int} :
    q ∈ iter_neighbors p size ↔
      (0 < p.row ∧ q = ⟨p.row - 1, p.col⟩) ∨
      (p.row < size - 1 ∧ q = ⟨p.row + 1, p.col⟩) ∨
      (0 < p.col ∧ q = ⟨p.row, p.col - 1⟩) ∨
      (p.col < size - 1 ∧ q = ⟨p.row, p.col + 1⟩) := by
  obtain ⟨pr, pc⟩ := p
  obtain ⟨qr, qc⟩ := q
  simp only [iter_neighbors, List.mem_append, List.mem_singleton, List.not_mem_nil,
    Point.mk.injEq]
  split_ifs <;> simp_all <;> omega

theorem inBounds_of_mem_iter_neighbors {p q : Point} {size : Int}
    (hp : inBounds size p) (hq : q ∈ iter_neighbors p size) :
    inBounds size q := by
  obtain ⟨h1, h2, h3, h4⟩ := hp
  rcases mem_iter_neighbors.mp hq with ⟨h, rfl⟩ | ⟨h, rfl⟩ | ⟨h, rfl⟩ | ⟨h, rfl⟩
  · exact show 0 ≤ p.row - 1 ∧ p.row - 1 < size ∧ 0 ≤ p.col ∧ p.col < size by omega
  · exact show 0 ≤ p.row + 1 ∧ p.row + 1 < size ∧ 0 ≤ p.col ∧ p.col < size by omega
  · exact show 0 ≤ p.row ∧ p.row < size ∧ 0 ≤ p.col - 1 ∧ p.col - 1 < size by omega
  · exact show 0 ≤ p.row ∧ p.row < size ∧ 0 ≤ p.col + 1 ∧ p.col + 1 < size by omega

theorem mem_iter_neighbors_symm {p q : Point} {size : Int}
    (hp : inBounds size p) (hq : q ∈ iter_neighbors p size) :
    p ∈ iter_neighbors q size := by
  obtain ⟨h1, h2, h3, h4⟩ := hp
  obtain ⟨pr, pc⟩ := p
  rw [mem_iter_neighbors] at hq ⊢
  simp only [Point.mk.injEq] at *
  rcases hq with ⟨h, rfl, rfl⟩ | ⟨h, rfl, rfl⟩ | ⟨h, rfl, rfl⟩ | ⟨h, rfl, rfl⟩ <;>
    simp_all <;> omega

theorem length_iter_neighbors_le (p : Point) (size : Int) :
    (iter_neighbors p size).length ≤ 4 := by
  simp only [iter_neighbors, List.length_append]
  split_ifs <;> simp

theorem mem_boardFinset {size : Int} {p : Point} :
    p ∈ boardFinset size ↔ inBounds size p := by
  obtain ⟨pr, pc⟩ := p
  simp only [boardFinset, Finset.mem_image, Finset.mem_product, Finset.mem_range,
    Prod.exists, inBounds, Point.mk.injEq]
  constructor
  · rintro ⟨r, c, ⟨hr, hc⟩, he1, he2⟩
    refine ⟨?_, ?_, ?_, ?_⟩ <;> omega
  · rintro ⟨h1, h2, h3, h4⟩
    exact ⟨pr.toNat, pc.toNat, ⟨by omega, by omega⟩, by omega, by omega⟩

theorem card_boardFinset_le (size : Int) :
    (boardFinset size).card ≤ size.toNat * size.toNat := by
  calc (boardFinset size).card
      ≤ ((Finset.range size.toNat) ×ˢ (Finset.range size.toNat)).card :=
        Finset.card_image_le
    _ = size.toNat * size.toNat := by simp

theorem mem_rowMajorPoints {size : Int} {p : Point} :
    p ∈ rowMajorPoints size ↔ inBounds size p := by
  obtain ⟨pr, pc⟩ := p
  show _ ∈ _ ↔ 0 ≤ pr ∧ pr < size ∧ 0 ≤ pc ∧ pc < size
  constructor
  · intro h
    obtain ⟨r, hr, hp2⟩ := List.mem_flatMap.mp h
    obtain ⟨c, hc, heq⟩ := List.mem_map.mp hp2
    rw [List.mem_range] at hr hc
    obtain ⟨rfl, rfl⟩ := (Point.mk.injEq _ _ _ _).mp heq
    omega
  · rintro ⟨h1, h2, h3, h4⟩
    refine List.mem_flatMap.mpr ⟨pr.toNat, List.mem_range.mpr (by omega), ?_⟩
    refine List.mem_map.mpr ⟨pc.toNat, List.mem_range.mpr (by omega), ?_⟩
    simp only [Point.mk.injEq]
    omega

/-- Every member of a chain rooted at a stone of color `c` is a stone of
color `c`. -/
theorem SpecChain.get_eq {b : Board} {c : Color} {s q : Point}
    (h : SpecChain b c s q) (hs : b.get s = some c) : b.get q = some c := by
  induction h with
  | refl => exact hs
  | tail _ hstep _ => exact hstep.2

/-- Every member of a chain rooted in bounds is in bounds. -/
theorem SpecChain.inBounds {b : Board} {c : Color} {s q : Point}
    (h : SpecChain b c s q) (hs : GoGame.inBounds b.size s) :
    GoGame.inBounds b.size q := by
  induction h with
  | refl => exact hs
  | tail _ hstep ih => exact inBounds_of_mem_iter_neighbors ih hstep.1

/-- Every member of an empty region rooted at an in-bounds empty point
is in bounds and empty. -/
theorem SpecEmptyReach.inBounds_and_empty {b : Board} {p q : Point}
    (h : SpecEmptyReach b p q) (hp : GoGame.inBounds b.size p)
    (he : b.get p = none) : GoGame.inBounds b.size q ∧ b.get q = none := by
  induction h with
  | refl => exact ⟨hp, he⟩
  | tail _ hstep ih => exact ⟨inBounds_of_mem_iter_neighbors ih.1 hstep.1, hstep.2⟩

/-- Empty-region reachability is symmetric on in-bounds empty points. -/
theorem SpecEmptyReach.symm {b : Board} {p q : Point}
    (h : SpecEmptyReach b p q) (hp : GoGame.inBounds b.size p)
    (he : b.get p = none) : SpecEmptyReach b q p := by
  induction h with
  | refl => exact Relation.ReflTransGen.refl
  | tail hr hstep ih =>
    have hrb := SpecEmptyReach.inBounds_and_empty hr hp he
    exact Relation.ReflTransGen.head
      (show SpecEmptyStep b _ _ from
        ⟨mem_iter_neighbors_symm hrb.1 hstep.1, hrb.2⟩) ih

/-! ## Board access lemmas -/

theorem pyIndex_of_range {α : Type} {l : List α} {i : Int}
    (h0 : 0 ≤ i) (h1 : i < l.length) : pyIndex l i = l[i.toNat]? := by
  simp [pyIndex, h0, h1]

theorem pyIndex_wrap {α : Type} {l : List α} {i : Int}
    (h0 : -(l.length : Int) ≤ i) (h1 : i < 0) :
    pyIndex l i = pyIndex l (i + l.length) := by
  have : ¬ (0 ≤ i ∧ i < (l.length : Int)) := by omega
  have h2 : (0 : Int) ≤ i + l.length := by omega
  have h3 : i + (l.length : Int) < l.length := by omega
  simp only [pyIndex, this, if_false, h0, h1, and_self, if_true,
    pyIndex_of_range h2 h3]
  simp [h2, h3]

theorem pySet_length {α : Type} (l : List α) (i : Int) (a : α) :
    (pySet l i a).length = l.length := by
  unfold pySet
  split_ifs <;> simp

theorem Board.size_setCell (b : Board) (p : Point) (s : Stone) :
    (b.setCell p s).size = b.size := by
  unfold Board.setCell
  cases pyIndex b.grid p.row <;> rfl

theorem mem_pySet {α : Type} {l : List α} {i : Int} {a x : α}
    (h : x ∈ pySet l i a) : x ∈ l ∨ x = a := by
  unfold pySet at h
  split_ifs at h
  · exact List.mem_or_eq_of_mem_set h
  · exact List.mem_or_eq_of_mem_set h
  · exact Or.inl h

theorem Board.valid_setCell {b : Board} (hv : b.Valid) (p : Point) (s : Stone) :
    (b.setCell p s).Valid := by
  obtain ⟨h0, h1, h2⟩ := hv
  unfold Board.setCell
  cases hrow : pyIndex b.grid p.row with
  | none => exact ⟨h0, h1, h2⟩
  | some row =>
    have hrowmem : row ∈ b.grid := by
      unfold pyIndex at hrow
      split_ifs at hrow <;> exact List.getElem?_mem hrow
    refine ⟨h0, ?_, ?_⟩
    · show (pySet b.grid p.row (pySet row p.col s)).length = b.size.toNat
      rw [pySet_length]; exact h1
    · intro r hr
      rcases mem_pySet hr with h | h
      · exact h2 r h
      · subst h
        show (pySet row p.col s).length = b.size.toNat
        rw [pySet_length]; exact h2 row hrowmem

theorem pySet_of_range {α : Type} {l : List α} {i : Int}
    (h0 : 0 ≤ i) (h1 : i < l.length) (a : α) :
    pySet l i a = l.set i.toNat a := by
  simp [pySet, h0, h1]

/-- Reading a cell of a valid board, in coordinates. -/
theorem Board.get_of_valid {b : Board} (hv : b.Valid) {q : Point}
    (hq : inBounds b.size q) :
    ∃ row, b.grid[q.row.toNat]? = some row ∧
      row.length = b.size.toNat ∧ b.get q = row[q.col.toNat]?.join := by
  obtain ⟨h0, h1, h2⟩ := hv
  obtain ⟨hq1, hq2, hq3, hq4⟩ := hq
  have hlen : q.row.toNat < b.grid.length := by omega
  have hrow : b.grid[q.row.toNat]? = some b.grid[q.row.toNat] :=
    List.getElem?_eq_some_iff.mpr ⟨hlen, rfl⟩
  have hrowmem : b.grid[q.row.toNat] ∈ b.grid := List.getElem?_mem hrow
  refine ⟨b.grid[q.row.toNat], hrow, h2 _ hrowmem, ?_⟩
  unfold Board.get
  rw [pyIndex_of_range hq1 (by omega), hrow]
  show (pyIndex b.grid[q.row.toNat] q.col).join = _
  rw [pyIndex_of_range hq3 (by rw [h2 _ hrowmem]; omega)]

/-- Writing then reading cells of a valid board behaves pointwise. -/
theorem Board.get_setCell {b : Board} (hv : b.Valid) {p q : Point}
    (hp : inBounds b.size p) (hq : inBounds b.size q) (s : Stone) :
    (b.setCell p s).get q = if q = p then s else b.get q := by
  obtain ⟨h0, h1, h2⟩ := hv
  obtain ⟨hp1, hp2, hp3, hp4⟩ := hp
  obtain ⟨hq1, hq2, hq3, hq4⟩ := hq
  have hplen : p.row.toNat < b.grid.length := by omega
  have hprow : b.grid[p.row.toNat]? = some b.grid[p.row.toNat] :=
    List.getElem?_eq_some_iff.mpr ⟨hplen, rfl⟩
  set rowP := b.grid[p.row.toNat] with hrowP
  have hrowPmem : rowP ∈ b.grid := List.getElem?_mem hprow
  have hrPlen : rowP.length = b.size.toNat := h2 rowP hrowPmem
  have hpyP : pyIndex b.grid p.row = some rowP := by
    rw [pyIndex_of_range hp1 (by omega)]; exact hprow
  set newRow := pySet rowP p.col s with hnewRow
  have hnewlen : newRow.length = b.size.toNat := by
    rw [hnewRow, pySet_length]; exact hrPlen
  have hnewRowSet : newRow = rowP.set p.col.toNat s := by
    rw [hnewRow, pySet_of_range hp3 (by omega)]
  have hsetg : b.setCell p s = ⟨b.size, b.grid.set p.row.toNat newRow⟩ := by
    simp only [Board.setCell, hpyP]
    rw [pySet_of_range hp1 (by omega)]
  have hglen : (b.grid.set p.row.toNat newRow).length = b.grid.length := by simp
  rw [hsetg]
  by_cases hrow : q.row = p.row
  · have htn : q.row.toNat = p.row.toNat := by omega
    have hpy1 : pyIndex
        ((⟨b.size, b.grid.set p.row.toNat newRow⟩ : Board).grid) q.row =
        some newRow := by
      rw [pyIndex_of_range hq1 (by simp; omega)]
      show (b.grid.set p.row.toNat newRow)[q.row.toNat]? = some newRow
      rw [htn]
      exact List.getElem?_set_self (by omega)
    have hL : (Board.get ⟨b.size, b.grid.set p.row.toNat newRow⟩ q) =
        (pyIndex newRow q.col).join := by
      simp only [Board.get, hpy1]
    rw [hL]
    by_cases hcol : q.col = p.col
    · have hqp : q = p := by cases q; cases p; simp_all
      rw [if_pos hqp]
      have hpy2 : pyIndex newRow q.col = some s := by
        rw [pyIndex_of_range hq3 (by omega)]
        rw [hnewRowSet]
        have hct : q.col.toNat = p.col.toNat := by omega
        rw [hct]
        exact List.getElem?_set_self (by omega)
      rw [hpy2]
      rfl
    · rw [if_neg (by intro h; subst h; exact hcol rfl)]
      have hpy2 : pyIndex newRow q.col = rowP[q.col.toNat]? := by
        rw [pyIndex_of_range hq3 (by omega)]
        rw [hnewRowSet]
        exact List.getElem?_set_ne (by omega)
      have hbq : b.get q = (rowP[q.col.toNat]?).join := by
        unfold Board.get
        rw [pyIndex_of_range hq1 (by omega)]
        have hthis : b.grid[q.row.toNat]? = some rowP := by rw [htn]; exact hprow
        rw [hthis]
        show (pyIndex rowP q.col).join = _
        rw [pyIndex_of_range hq3 (by omega)]
      rw [hpy2, hbq]
  · rw [if_neg (by intro h; subst h; exact hrow rfl)]
    have hpy1 : pyIndex
        ((⟨b.size, b.grid.set p.row.toNat newRow⟩ : Board).grid) q.row =
        b.grid[q.row.toNat]? := by
      rw [pyIndex_of_range hq1 (by simp; omega)]
      exact List.getElem?_set_ne (by omega)
    have hL : (Board.get ⟨b.size, b.grid.set p.row.toNat newRow⟩ q) =
        (match b.grid[q.row.toNat]? with
          | none => none
          | some row => (pyIndex row q.col).join) := by
      simp only [Board.get, hpy1]
    have hR : b.get q =
        (match b.grid[q.row.toNat]? with
          | none => none
          | some row => (pyIndex row q.col).join) := by
      unfold Board.get
      rw [pyIndex_of_range hq1 (by omega)]
    rw [hL, hR]

theorem Board.size_place (b : Board) (p : Point) (c : Color) :
    (b.place p c).size = b.size := Board.size_setCell b p (some c)

theorem Board.valid_place {b : Board} (hv : b.Valid) (p : Point) (c : Color) :
    (b.place p c).Valid := Board.valid_setCell hv p (some c)

theorem Board.get_place {b : Board} (hv : b.Valid) {p q : Point}
    (hp : inBounds b.size p) (hq : inBounds b.size q) (c : Color) :
    (b.place p c).get q = if q = p then some c else b.get q :=
  Board.get_setCell hv hp hq (some c)

theorem Board.size_remove_many (b : Board) (ps : List Point) :
    (b.remove_many ps).size = b.size := by
  induction ps generalizing b with
  | nil => rfl
  | cons h t ih =>
    show (Board.remove_many _ t).size = b.size
    rw [ih, Board.size_setCell]

theorem Board.valid_remove_many {b : Board} (hv : b.Valid) (ps : List Point) :
    (b.remove_many ps).Valid := by
  induction ps generalizing b with
  | nil => exact hv
  | cons h t ih => exact ih (Board.valid_setCell hv h none)

theorem Board.get_remove_many {b : Board} (hv : b.Valid) {ps : List Point}
    (hps : ∀ x ∈ ps, inBounds b.size x) {q : Point}
    (hq : inBounds b.size q) :
    (b.remove_many ps).get q = if q ∈ ps then none else b.get q := by
  induction ps generalizing b with
  | nil => simp [Board.remove_many]
  | cons h t ih =>
    have hh : inBounds b.size h := hps h (List.mem_cons_self h t)
    have hv' := Board.valid_setCell hv h none
    have hsz : (b.setCell h none).size = b.size := Board.size_setCell b h none
    have ht : ∀ x ∈ t, inBounds (b.setCell h none).size x := by
      intro x hx; rw [hsz]; exact hps x (List.mem_cons_of_mem h hx)
    show (Board.remove_many _ t).get q = _
    rw [ih hv' ht (by rw [hsz]; exact hq)]
    rw [Board.get_setCell hv hh hq none]
    by_cases h1 : q ∈ t <;> by_cases h2 : q = h <;> simp [h1, h2]

theorem Board.get_emptyBoard (size : Int) (p : Point) :
    (Board.emptyBoard size).get p = none := by
  unfold Board.emptyBoard Board.get
  cases hrow : pyIndex (List.replicate size.toNat (List.replicate size.toNat none)) p.row with
  | none => rfl
  | some row =>
    have hmem : row ∈ List.replicate size.toNat (List.replicate size.toNat (none : Stone)) := by
      unfold pyIndex at hrow
      split_ifs at hrow <;> exact List.getElem?_mem hrow
    have : row = List.replicate size.toNat none := (List.eq_of_mem_replicate hmem)
    subst this
    show (pyIndex (List.replicate size.toNat (none : Stone)) p.col).join = none
    cases hcol : pyIndex (List.replicate size.toNat (none : Stone)) p.col with
    | none => rfl
    | some st =>
      have : st ∈ List.replicate size.toNat (none : Stone) := by
        unfold pyIndex at hcol
        split_ifs at hcol <;> exact List.getElem?_mem hcol
      have := List.eq_of_mem_replicate this
      subst this
      rfl

theorem Board.valid_emptyBoard {size : Int} (h : 0 ≤ size) :
    (Board.emptyBoard size).Valid := by
  refine ⟨h, by simp [Board.emptyBoard], ?_⟩
  intro row hrow
  have := List.eq_of_mem_replicate hrow
  subst this
  simp [Board.emptyBoard]

/-! ## Correctness of the group/liberty flood fill -/

theorem galLoop_subset {b : Board} {c : Color} :
    ∀ (fuel : Nat) (stack : List Point) (group libs : Finset Point),
    group ⊆ (galLoop b c fuel stack group libs).1 ∧
    libs ⊆ (galLoop b c fuel stack group libs).2 := by
  intro fuel
  induction fuel with
  | zero => intro stack group libs; exact ⟨subset_rfl, subset_rfl⟩
  | succ fuel ih =>
    intro stack group libs
    cases stack with
    | nil => exact ⟨subset_rfl, subset_rfl⟩
    | cons p rest =>
      simp only [galLoop]
      split_ifs with hmem
      · exact ih rest group libs
      · obtain ⟨h1, h2⟩ := ih _ (insert p group)
          (libs ∪ ((iter_neighbors p b.size).filter (fun nb => b.get nb = none)).toFinset)

        exact ⟨(Finset.subset_insert p group).trans h1,
          Finset.subset_union_left.trans h2⟩

theorem galLoop_sound {b : Board} {c : Color} {start : Point} :
    ∀ (fuel : Nat) (stack : List Point) (group libs : Finset Point),
    (∀ q ∈ stack, b.get q = some c ∧ SpecChain b c start q) →
    (∀ q ∈ group, b.get q = some c ∧ SpecChain b c start q) →
    (∀ q ∈ libs, b.get q = none ∧ ∃ r ∈ group, q ∈ iter_neighbors r b.size) →
    (∀ q ∈ (galLoop b c fuel stack group libs).1,
        b.get q = some c ∧ SpecChain b c start q) ∧
    (∀ q ∈ (galLoop b c fuel stack group libs).2, b.get q = none ∧
        ∃ r ∈ (galLoop b c fuel stack group libs).1, q ∈ iter_neighbors r b.size) := by
  intro fuel
  induction fuel with
  | zero =>
    intro stack group libs _ hgroup hlibs
    refine ⟨hgroup, ?_⟩
    intro q hq
    obtain ⟨h1, r, hr, h2⟩ := hlibs q hq
    exact ⟨h1, r, hr, h2⟩
  | succ fuel ih =>
    intro stack group libs hstack hgroup hlibs
    cases stack with
    | nil =>
      refine ⟨hgroup, ?_⟩
      intro q hq
      obtain ⟨h1, r, hr, h2⟩ := hlibs q hq
      exact ⟨h1, r, hr, h2⟩
    | cons p rest =>
      simp only [galLoop]
      split_ifs with hmem
      · exact ih rest group libs (fun q hq => hstack q (List.mem_cons_of_mem p hq))
          hgroup hlibs
      · have hp := hstack p (List.mem_cons_self p rest)
        refine ih _ _ _ ?_ ?_ ?_
        · intro q hq
          rcases List.mem_append.mp hq with hq | hq
          · obtain ⟨hqnb, hqprop⟩ := List.mem_filter.mp hq
            have hq2 := of_decide_eq_true hqprop
            exact ⟨hq2.1, hp.2.tail ⟨hqnb, hq2.1⟩⟩
          · exact hstack q (List.mem_cons_of_mem p hq)
        · intro q hq
          rcases Finset.mem_insert.mp hq with rfl | hq
          · exact hp
          · exact hgroup q hq
        · intro q hq
          rcases Finset.mem_union.mp hq with hq | hq
          · obtain ⟨h1, r, hr, h2⟩ := hlibs q hq
            exact ⟨h1, r, Finset.mem_insert_of_mem hr, h2⟩
          · obtain ⟨hqnb, hqprop⟩ := List.mem_filter.mp (List.mem_toFinset.mp hq)
            exact ⟨of_decide_eq_true hqprop, p, Finset.mem_insert_self p group, hqnb⟩

theorem galLoop_complete {b : Board} {c : Color} {start : Point} :
    ∀ (fuel : Nat) (stack : List Point) (group libs : Finset Point),
    (∀ q ∈ stack, inBounds b.size q) →
    (∀ q ∈ group, inBounds b.size q) →
    (∀ r ∈ group, ∀ q ∈ iter_neighbors r b.size, b.get q = some c →
        q ∈ group ∨ q ∈ stack) →
    (start ∈ group ∨ start ∈ stack) →
    (stack.length + 5 * ((boardFinset b.size) \ group).card ≤ fuel) →
    start ∈ (galLoop b c fuel stack group libs).1 ∧
    (∀ r ∈ (galLoop b c fuel stack group libs).1, ∀ q ∈ iter_neighbors r b.size,
        b.get q = some c → q ∈ (galLoop b c fuel stack group libs).1) := by
  intro fuel
  induction fuel with
  | zero =>
    intro stack group libs hsb hgb hfront hstart hfuel
    have hse : stack = [] := by
      cases stack with
      | nil => rfl
      | cons p rest => simp at hfuel
    subst hse
    simp only [galLoop]
    refine ⟨hstart.resolve_right (by simp), ?_⟩
    intro r hr q hq hcq
    exact (hfront r hr q hq hcq).resolve_right (by simp)
  | succ fuel ih =>
    intro stack group libs hsb hgb hfront hstart hfuel
    cases stack with
    | nil =>
      simp only [galLoop]
      refine ⟨hstart.resolve_right (by simp), ?_⟩
      intro r hr q hq hcq
      exact (hfront r hr q hq hcq).resolve_right (by simp)
    | cons p rest =>
      simp only [galLoop]
      split_ifs with hmem
      · refine ih rest group libs
          (fun q hq => hsb q (List.mem_cons_of_mem p hq)) hgb ?_ ?_ ?_
        · intro r hr q hq hcq
          rcases hfront r hr q hq hcq with h | h
          · exact Or.inl h
          · rcases List.mem_cons.mp h with rfl | h
            · exact Or.inl hmem
            · exact Or.inr h
        · rcases hstart with h | h
          · exact Or.inl h
          · rcases List.mem_cons.mp h with rfl | h
            · exact Or.inl hmem
            · exact Or.inr h
        · simp only [List.length_cons] at hfuel
          omega
      · have hpin : inBounds b.size p := hsb p (List.mem_cons_self p rest)
        have hpD : p ∈ (boardFinset b.size) \ group :=
          Finset.mem_sdiff.mpr ⟨mem_boardFinset.mpr hpin, hmem⟩
        have hcard1 : 1 ≤ ((boardFinset b.size) \ group).card :=
          Finset.card_pos.mpr ⟨p, hpD⟩
        have hsdiff : (boardFinset b.size) \ (insert p group) =
            ((boardFinset b.size) \ group).erase p := by
          ext x
          simp only [Finset.mem_sdiff, Finset.mem_insert, Finset.mem_erase]
          tauto
        have hcard : ((boardFinset b.size) \ (insert p group)).card =
            ((boardFinset b.size) \ group).card - 1 := by
          rw [hsdiff, Finset.card_erase_of_mem hpD]
        have hpushlen :
            ((iter_neighbors p b.size).filter
              (fun nb => b.get nb = some c ∧ nb ∉ insert p group)).length ≤ 4 :=
          (List.length_filter_le _ _).trans (length_iter_neighbors_le p b.size)
        refine ih _ _ _ ?_ ?_ ?_ ?_ ?_
        · intro q hq
          rcases List.mem_append.mp hq with hq | hq
          · exact inBounds_of_mem_iter_neighbors hpin (List.mem_filter.mp hq).1
          · exact hsb q (List.mem_cons_of_mem p hq)
        · intro q hq
          rcases Finset.mem_insert.mp hq with rfl | hq
          · exact hpin
          · exact hgb q hq
        · intro r hr q hq hcq
          rcases Finset.mem_insert.mp hr with rfl | hr
          · by_cases hqg : q ∈ insert r group
            · exact Or.inl hqg
            · refine Or.inr (List.mem_append.mpr (Or.inl ?_))
              exact List.mem_filter.mpr ⟨hq, decide_eq_true ⟨hcq, hqg⟩⟩
          · rcases hfront r hr q hq hcq with h | h
            · exact Or.inl (Finset.mem_insert_of_mem h)
            · rcases List.mem_cons.mp h with rfl | h
              · exact Or.inl (Finset.mem_insert_self q group)
              · exact Or.inr (List.mem_append.mpr (Or.inr h))
        · rcases hstart with h | h
          · exact Or.inl (Finset.mem_insert_of_mem h)
          · rcases List.mem_cons.mp h with rfl | h
            · exact Or.inl (Finset.mem_insert_self start group)
            · exact Or.inr (List.mem_append.mpr (Or.inr h))
        · rw [hcard]
          have hlen : (((iter_neighbors p b.size).filter
              (fun nb => b.get nb = some c ∧ nb ∉ insert p group)) ++ rest).length ≤
              rest.length + 4 := by
            rw [List.length_append]
            omega
          simp only [List.length_cons] at hfuel
          omega

theorem galLoop_libs_complete {b : Board} {c : Color} :
    ∀ (fuel : Nat) (stack : List Point) (group libs : Finset Point),
    (∀ r ∈ group, ∀ q ∈ iter_neighbors r b.size, b.get q = none → q ∈ libs) →
    ∀ r ∈ (galLoop b c fuel stack group libs).1, ∀ q ∈ iter_neighbors r b.size,
      b.get q = none → q ∈ (galLoop b c fuel stack group libs).2 := by
  intro fuel
  induction fuel with
  | zero => intro stack group libs h; exact h
  | succ fuel ih =>
    intro stack group libs h
    cases stack with
    | nil => exact h
    | cons p rest =>
      simp only [galLoop]
      split_ifs with hmem
      · exact ih rest group libs h
      · refine ih _ _ _ ?_
        intro r hr q hq hqe
        rcases Finset.mem_insert.mp hr with rfl | hr
        · refine Finset.mem_union_right _ (List.mem_toFinset.mpr ?_)
          exact List.mem_filter.mpr ⟨hq, decide_eq_true hqe⟩
        · exact Finset.mem_union_left _ (h r hr q hq hqe)

/-- The DFS of `_group_and_liberties` computes exactly the maximal chain
through `start` and its exact liberty set. -/
theorem group_and_liberties_spec {b : Board} {start : Point} {c : Color}
    (hs : inBounds b.size start) (hc : b.get start = some c) :
    (∀ q, q ∈ (group_and_liberties b start).1 ↔ SpecChain b c start q) ∧
    (∀ q, q ∈ (group_and_liberties b start).2 ↔ SpecChainLiberty b c start q) := by
  have hgl : group_and_liberties b start = galLoop b c (galFuel b) [start] ∅ ∅ := by
    unfold group_and_liberties
    rw [hc]
  rw [hgl]
  have hsound := @galLoop_sound b c start
    (galFuel b) [start] ∅ ∅
    (by intro q hq
        rcases List.mem_singleton.mp hq with rfl
        exact ⟨hc, Relation.ReflTransGen.refl⟩)
    (by simp) (by simp)
  have hcomp := @galLoop_complete b c start
    (galFuel b) [start] ∅ ∅
    (by intro q hq
        rcases List.mem_singleton.mp hq with rfl
        exact hs)
    (by simp) (by simp) (Or.inr (List.mem_singleton.mpr rfl))
    (by simp only [List.length_singleton, Finset.sdiff_empty]
        have h1 := card_boardFinset_le b.size
        have h2 : 5 * (boardFinset b.size).card ≤
            5 * (b.size.toNat * b.size.toNat) :=
          Nat.mul_le_mul_left 5 h1
        have h3 : 5 * (b.size.toNat * b.size.toNat) =
            5 * b.size.toNat * b.size.toNat := (Nat.mul_assoc 5 _ _).symm
        unfold galFuel
        omega)
  have hlibs := @galLoop_libs_complete b c
    (galFuel b) [start] ∅ ∅ (by simp)
  have hgroup_iff : ∀ q, q ∈ (galLoop b c (galFuel b) [start] ∅ ∅).1 ↔
      SpecChain b c start q := by
    intro q
    constructor
    · intro hq
      exact (hsound.1 q hq).2
    · intro hq
      induction hq with
      | refl => exact hcomp.1
      | tail hab hbc ihq => exact hcomp.2 _ ihq _ hbc.1 hbc.2
  refine ⟨hgroup_iff, ?_⟩
  intro q
  constructor
  · intro hq
    obtain ⟨h1, r, hr, h2⟩ := hsound.2 q hq
    exact ⟨h1, r, (hgroup_iff r).mp hr, h2⟩
  · rintro ⟨h1, r, hchain, h2⟩
    exact hlibs r ((hgroup_iff r).mpr hchain) q h2 h1

/-- Zero liberty count of the DFS coincides with the spec-side notion of
a dead chain. -/
theorem dead_iff_card_zero {b : Board} {nb : Point} {c : Color}
    (h1 : inBounds b.size nb) (h2 : b.get nb = some c) :
    (group_and_liberties b nb).2.card = 0 ↔ SpecDead b c nb := by
  rw [Finset.card_eq_zero, Finset.eq_empty_iff_forall_not_mem]
  unfold SpecDead
  constructor
  · intro h q hq
    exact h q (((group_and_liberties_spec h1 h2).2 q).mpr hq)
  · intro h q hq
    exact h q (((group_and_liberties_spec h1 h2).2 q).mp hq)

/-! ## Correctness of capture resolution -/

theorem capturable_fold {b : Board} {c : Color} :
    ∀ (l : List Point) (acc : Finset Point),
    (∀ x ∈ l, inBounds b.size x) →
    ∀ q, (q ∈ l.foldl (fun acc nb =>
        if b.get nb = some c.opponent then
          let gl := group_and_liberties b nb
          if gl.2.card = 0 then acc ∪ gl.1 else acc
        else acc) acc ↔
      q ∈ acc ∨ ∃ nb ∈ l, b.get nb = some c.opponent ∧
        SpecDead b c.opponent nb ∧ SpecChain b c.opponent nb q) := by
  intro l
  induction l with
  | nil => intro acc _ q; simp
  | cons nb0 t ih =>
    intro acc hl q
    have hnb0 : inBounds b.size nb0 := hl nb0 (List.mem_cons_self nb0 t)
    have ht : ∀ x ∈ t, inBounds b.size x :=
      fun x hx => hl x (List.mem_cons_of_mem nb0 hx)
    rw [List.foldl_cons, ih _ ht q]
    by_cases h1 : b.get nb0 = some c.opponent
    · by_cases h2 : (group_and_liberties b nb0).2.card = 0
      · simp only [h1, if_true, h2, if_true]
        rw [Finset.mem_union]
        have hchain := (group_and_liberties_spec hnb0 h1).1 q
        have hdead := (dead_iff_card_zero hnb0 h1).mp h2
        constructor
        · rintro ((hq | hq) | ⟨nb, hnb, hrest⟩)
          · exact Or.inl hq
          · exact Or.inr ⟨nb0, List.mem_cons_self nb0 t, h1, hdead, hchain.mp hq⟩
          · exact Or.inr ⟨nb, List.mem_cons_of_mem nb0 hnb, hrest⟩
        · rintro (hq | ⟨nb, hnb, hg, hd, hc2⟩)
          · exact Or.inl (Or.inl hq)
          · rcases List.mem_cons.mp hnb with rfl | hnb
            · exact Or.inl (Or.inr (hchain.mpr hc2))
            · exact Or.inr ⟨nb, hnb, hg, hd, hc2⟩
      · simp only [h1, if_true, h2, if_false]
        constructor
        · rintro (hq | ⟨nb, hnb, hrest⟩)
          · exact Or.inl hq
          · exact Or.inr ⟨nb, List.mem_cons_of_mem nb0 hnb, hrest⟩
        · rintro (hq | ⟨nb, hnb, hg, hd, hc2⟩)
          · exact Or.inl hq
          · rcases List.mem_cons.mp hnb with rfl | hnb
            · exact absurd ((dead_iff_card_zero hnb0 h1).mpr hd) h2
            · exact Or.inr ⟨nb, hnb, hg, hd, hc2⟩
    · simp only [h1, if_false]
      constructor
      · rintro (hq | ⟨nb, hnb, hrest⟩)
        · exact Or.inl hq
        · exact Or.inr ⟨nb, List.mem_cons_of_mem nb0 hnb, hrest⟩
      · rintro (hq | ⟨nb, hnb, hg, hd, hc2⟩)
        · exact Or.inl hq
        · rcases List.mem_cons.mp hnb with rfl | hnb
          · exact absurd hg h1
          · exact Or.inr ⟨nb, hnb, hg, hd, hc2⟩

/-- The capture set is exactly the union of the dead enemy chains seeded
at neighbors of the placed stone. -/
theorem capturable_spec {b : Board} {p : Point} {c : Color}
    (hp : inBounds b.size p) :
    ∀ q, (q ∈ capturable_enemy_groups b p c ↔
      ∃ nb ∈ iter_neighbors p b.size, b.get nb = some c.opponent ∧
        SpecDead b c.opponent nb ∧ SpecChain b c.opponent nb q) := by
  intro q
  unfold capturable_enemy_groups
  rw [capturable_fold (iter_neighbors p b.size) ∅
    (fun x hx => inBounds_of_mem_iter_neighbors hp hx) q]
  simp

/-! ## The move pipeline: placement, capture, post-capture board -/

theorem Color.opponent_ne (c : Color) : c.opponent ≠ c := by
  cases c <;> simp [Color.opponent]

/-- The board after placement and capture resolution (the `b2` of
`apply_move`). -/
def postCaptureBoard (board : Board) (p : Point) (color : Color) : Board :=
  let b1 := board.place p color
  let captured_points := capturable_enemy_groups b1 p color
  if captured_points.Nonempty
    then b1.remove_many (sortPoints captured_points) else b1

theorem cap_mem_facts {board : Board} {p : Point} {color : Color}
    (hin : inBounds board.size p) {q : Point}
    (hq : q ∈ capturable_enemy_groups (board.place p color) p color) :
    inBounds board.size q ∧
      (board.place p color).get q = some color.opponent := by
  have hsz : (board.place p color).size = board.size := Board.size_place board p color
  have hin1 : inBounds (board.place p color).size p := by rw [hsz]; exact hin
  obtain ⟨nb, hnb, hg, _, hchain⟩ := (capturable_spec hin1 q).mp hq
  have hnbin : inBounds (board.place p color).size nb :=
    inBounds_of_mem_iter_neighbors hin1 hnb
  refine ⟨?_, hchain.get_eq hg⟩
  have := hchain.inBounds hnbin
  rwa [hsz] at this

theorem p_not_mem_cap {board : Board} {p : Point} {color : Color}
    (hv : board.Valid) (hin : inBounds board.size p) :
    p ∉ capturable_enemy_groups (board.place p color) p color := by
  intro hmem
  have h2 := (cap_mem_facts hin hmem).2
  rw [Board.get_place hv hin hin color, if_pos rfl] at h2
  injection h2 with h
  exact Color.opponent_ne color h.symm

theorem size_postCaptureBoard (board : Board) (p : Point) (color : Color) :
    (postCaptureBoard board p color).size = board.size := by
  simp only [postCaptureBoard]
  split_ifs
  · rw [Board.size_remove_many, Board.size_place]
  · rw [Board.size_place]

theorem valid_postCaptureBoard {board : Board} (hv : board.Valid)
    (p : Point) (color : Color) : (postCaptureBoard board p color).Valid := by
  simp only [postCaptureBoard]
  split_ifs
  · exact Board.valid_remove_many (Board.valid_place hv p color) _
  · exact Board.valid_place hv p color

theorem get_postCaptureBoard {board : Board} {p : Point} {color : Color}
    (hv : board.Valid) (hin : inBounds board.size p) {q : Point}
    (hq : inBounds board.size q) :
    (postCaptureBoard board p color).get q =
      if q ∈ capturable_enemy_groups (board.place p color) p color then none
      else (board.place p color).get q := by
  have hv1 : (board.place p color).Valid := Board.valid_place hv p color
  have hsz : (board.place p color).size = board.size := Board.size_place board p color
  simp only [postCaptureBoard]
  split_ifs with hne hmem hmem
  · have := @Board.get_remove_many (board.place p color) hv1
      (sortPoints (capturable_enemy_groups (board.place p color) p color))
      (by intro x hx
          rw [hsz]
          exact (cap_mem_facts hin (mem_sortPoints.mp hx)).1)
      q (by rw [hsz]; exact hq)
    rw [this, if_pos (mem_sortPoints.mpr hmem)]
  · have := @Board.get_remove_many (board.place p color) hv1
      (sortPoints (capturable_enemy_groups (board.place p color) p color))
      (by intro x hx
          rw [hsz]
          exact (cap_mem_facts hin (mem_sortPoints.mp hx)).1)
      q (by rw [hsz]; exact hq)
    rw [this, if_neg (fun hx => hmem (mem_sortPoints.mp hx))]
  · exact absurd ⟨q, hmem⟩ hne
  · rfl

theorem get_postCaptureBoard_self {board : Board} {p : Point} {color : Color}
    (hv : board.Valid) (hin : inBounds board.size p) :
    (postCaptureBoard board p color).get p = some color := by
  rw [get_postCaptureBoard hv hin hin,
    if_neg (p_not_mem_cap hv hin),
    Board.get_place hv hin hin color, if_pos rfl]

/-- A move that captures at least one stone leaves the placed stone's
chain with at least one liberty: the seed of a captured chain is a
neighbor of `p` that became empty. -/
theorem capture_gives_liberty {board : Board} {p : Point} {color : Color}
    (hv : board.Valid) (hin : inBounds board.size p)
    (hne : (capturable_enemy_groups (board.place p color) p color).Nonempty) :
    (group_and_liberties (postCaptureBoard board p color) p).2.card ≠ 0 := by
  set b2 := postCaptureBoard board p color with hb2
  have hsz2 : b2.size = board.size := size_postCaptureBoard board p color
  have hsz1 : (board.place p color).size = board.size := Board.size_place board p color
  have hin2 : inBounds b2.size p := by rw [hsz2]; exact hin
  have hget2 : b2.get p = some color := get_postCaptureBoard_self hv hin
  obtain ⟨x, hx⟩ := hne
  have hin1 : inBounds (board.place p color).size p := by rw [hsz1]; exact hin
  obtain ⟨nb, hnb, hg, hd, _⟩ := (capturable_spec hin1 x).mp hx
  have hnbcap : nb ∈ capturable_enemy_groups (board.place p color) p color := by
    rw [capturable_spec hin1 nb]
    exact ⟨nb, hnb, hg, hd, Relation.ReflTransGen.refl⟩
  have hnbin : inBounds board.size nb := by
    have := inBounds_of_mem_iter_neighbors hin1 hnb
    rwa [hsz1] at this
  have hnb2 : b2.get nb = none := by
    rw [hb2, get_postCaptureBoard hv hin hnbin, if_pos hnbcap]
  have hlib : SpecChainLiberty b2 color p nb := by
    refine ⟨hnb2, p, Relation.ReflTransGen.refl, ?_⟩
    rw [hsz2]
    rw [hsz1] at hnb
    exact hnb
  intro hcard
  exact (dead_iff_card_zero hin2 hget2).mp hcard nb hlib

/-! ## Gate structure of apply_move -/

theorem apply_move_oob {board : Board} {p : Point} (color : Color)
    (ko : Option Signature) (h : ¬ inBounds board.size p) :
    apply_move board p color ko = .error .outOfBounds := by
  unfold apply_move
  rw [if_pos h]

theorem apply_move_oob_iff {board : Board} {p : Point} {color : Color}
    {ko : Option Signature} :
    apply_move board p color ko = .error .outOfBounds ↔
      ¬ inBounds board.size p := by
  simp only [apply_move]
  split_ifs <;> simp_all

theorem apply_move_occupied_iff {board : Board} {p : Point} {color : Color}
    {ko : Option Signature} (hin : inBounds board.size p) :
    apply_move board p color ko = .error .occupiedPoint ↔
      board.get p ≠ none := by
  simp only [apply_move]
  rw [if_neg (not_not_intro hin)]
  split_ifs <;> simp_all

/-- Past the bounds and occupancy gates, `apply_move` is the
suicide/ko/success decision over the post-capture board. -/
theorem apply_move_eq {board : Board} {p : Point} {color : Color}
    {ko : Option Signature} (hin : inBounds board.size p)
    (hemp : board.get p = none) :
    apply_move board p color ko =
      (if (group_and_liberties (postCaptureBoard board p color) p).2.card = 0
        then .error .suicideMove
       else if ko = some (postCaptureBoard board p color).signature
        then .error .koViolation
       else .ok ⟨postCaptureBoard board p color,
         (capturable_enemy_groups (board.place p color) p color).card,
         sortPoints (capturable_enemy_groups (board.place p color) p color)⟩) := by
  simp only [apply_move, postCaptureBoard]
  rw [if_neg (not_not_intro hin), if_neg (by simp [hemp])]

/-! ## Claim theorems about the move rules -/

/-- Claim C1: `apply_move` either succeeds or fails with exactly one of
`OutOfBounds`, `OccupiedPoint`, `SuicideMove`, `KoViolation`, with the
gates evaluated in this order: out-of-bounds iff the point is outside
`[0, size)`; otherwise occupied iff the point holds a stone; otherwise,
with the stone placed and captures applied, suicide iff the placed
stone's chain has zero liberties on the post-capture board; otherwise ko
iff the ko signature is set and equals the resulting board's signature.
A move that captures at least one opponent stone is never rejected as
suicide. -/
theorem claim_C1 (board : Board) (p : Point) (color : Color)
    (ko : Option Signature) (hv : board.Valid) :
    (apply_move board p color ko = .error .outOfBounds ↔
      ¬ inBounds board.size p) ∧
    (inBounds board.size p →
      (apply_move board p color ko = .error .occupiedPoint ↔
        board.get p ≠ none)) ∧
    (inBounds board.size p → board.get p = none →
      (apply_move board p color ko = .error .suicideMove ↔
        SpecDead (postCaptureBoard board p color) color p)) ∧
    (inBounds board.size p → board.get p = none →
      ¬ SpecDead (postCaptureBoard board p color) color p →
      (apply_move board p color ko = .error .koViolation ↔
        ko = some (postCaptureBoard board p color).signature)) ∧
    (inBounds board.size p → board.get p = none →
      ¬ SpecDead (postCaptureBoard board p color) color p →
      ko ≠ some (postCaptureBoard board p color).signature →
      ∃ res, apply_move board p color ko = .ok res) ∧
    (inBounds board.size p → board.get p = none →
      (capturable_enemy_groups (board.place p color) p color).Nonempty →
      apply_move board p color ko ≠ .error .suicideMove) := by
  have hdead : ∀ (hin : inBounds board.size p),
      ((group_and_liberties (postCaptureBoard board p color) p).2.card = 0 ↔
        SpecDead (postCaptureBoard board p color) color p) := by
    intro hin
    exact dead_iff_card_zero
      (by rw [size_postCaptureBoard]; exact hin)
      (get_postCaptureBoard_self hv hin)
  refine ⟨apply_move_oob_iff, fun hin => apply_move_occupied_iff hin,
    ?_, ?_, ?_, ?_⟩
  · intro hin hemp
    rw [apply_move_eq hin hemp, ← hdead hin]
    split_ifs with h1 h2 <;> simp_all
  · intro hin hemp hnd
    rw [apply_move_eq hin hemp, ← hdead hin] at *
    split_ifs with h1 h2 <;> simp_all
  · intro hin hemp hnd hko
    rw [apply_move_eq hin hemp, ← hdead hin] at *
    split_ifs with h1 h2 <;> simp_all
  · intro hin hemp hne
    rw [apply_move_eq hin hemp]
    have hcard := capture_gives_liberty hv hin hne
    split_ifs with h1 h2 <;> simp_all

theorem claim_C1_witness :
    apply_move (Board.emptyBoard 2) ⟨0, 0⟩ Color.black none =
        .error .outOfBounds ↔
      ¬ inBounds (Board.emptyBoard 2).size ⟨0, 0⟩ :=
  (claim_C1 (Board.emptyBoard 2) ⟨0, 0⟩ Color.black none (by decide)).1

/-- Claim C2: on success, the removed points are exactly the union of
the maximal 4-connected opponent chains adjacent to `p` that have zero
liberties on the intermediate board; no other cell changes; the captured
count equals the number of distinct removed points; and
`captured_points` is that set listed in ascending `(row, col)` order. -/
theorem claim_C2 (board : Board) (p : Point) (color : Color)
    (ko : Option Signature) (res : MoveResult) (hv : board.Valid)
    (h : apply_move board p color ko = .ok res) :
    (∀ q, q ∈ res.captured_points ↔
      ∃ nb ∈ iter_neighbors p board.size,
        (board.place p color).get nb = some color.opponent ∧
        SpecDead (board.place p color) color.opponent nb ∧
        SpecChain (board.place p color) color.opponent nb q) ∧
    (∀ q, inBounds board.size q →
      res.board.get q = if q ∈ res.captured_points then none
        else (board.place p color).get q) ∧
    res.captured = res.captured_points.length ∧
    res.captured_points.Nodup ∧
    res.captured_points.Sorted pointLe := by
  have hin : inBounds board.size p := by
    by_contra hni
    rw [apply_move_oob color ko hni] at h
    exact Except.noConfusion h
  have hemp : board.get p = none := by
    by_contra hne
    rw [(apply_move_occupied_iff hin).mpr hne] at h
    exact Except.noConfusion h
  rw [apply_move_eq hin hemp] at h
  split_ifs at h with h1 h2
  injection h with h
  subst h
  have hsz1 : (board.place p color).size = board.size :=
    Board.size_place board p color
  have hin1 : inBounds (board.place p color).size p := by
    rw [hsz1]; exact hin
  refine ⟨?_, ?_, ?_, nodup_sortPoints _, sorted_sortPoints _⟩
  · intro q
    show q ∈ sortPoints _ ↔ _
    rw [mem_sortPoints, capturable_spec hin1 q, hsz1]
  · intro q hq
    show (postCaptureBoard board p color).get q =
      (if q ∈ sortPoints (capturable_enemy_groups (board.place p color) p color)
        then none else (board.place p color).get q)
    rw [get_postCaptureBoard hv hin hq]
    by_cases hc : q ∈ capturable_enemy_groups (board.place p color) p color
    · rw [if_pos hc, if_pos (mem_sortPoints.mpr hc)]
    · rw [if_neg hc, if_neg (fun hx => hc (mem_sortPoints.mp hx))]
  · exact (length_sortPoints _).symm

theorem claim_C2_witness :
    (⟨⟨2, [[none, some .black], [some .black, none]]⟩, 1,
        [⟨0, 0⟩]⟩ : MoveResult).captured =
      (⟨⟨2, [[none, some .black], [some .black, none]]⟩, 1,
        [⟨0, 0⟩]⟩ : MoveResult).captured_points.length :=
  (claim_C2 ⟨2, [[some .white, none], [some .black, none]]⟩ ⟨0, 1⟩
    Color.black none _ (by decide) (by decide)).2.2.1

/-- Claim C9: a point with a negative row or column is rejected by
`apply_move` with `OutOfBounds` (whatever the color or ko signature), so
no wrap-around read is reachable through the move path — even though
`Board.get` itself performs no bounds check and, for negative
coordinates in `[-size, -1]`, silently reads the wrapped-around cell. -/
theorem claim_C9 (b : Board) (hv : b.Valid) :
    (∀ p : Point, p.row < 0 ∨ p.col < 0 →
      ∀ (color : Color) (ko : Option Signature),
        apply_move b p color ko = .error .outOfBounds) ∧
    (∀ r cc : Int, -b.size ≤ r → r < 0 → 0 ≤ cc → cc < b.size →
      b.get ⟨r, cc⟩ = b.get ⟨r + b.size, cc⟩) ∧
    (∀ r cc : Int, 0 ≤ r → r < b.size → -b.size ≤ cc → cc < 0 →
      b.get ⟨r, cc⟩ = b.get ⟨r, cc + b.size⟩) := by
  obtain ⟨h0, h1, h2⟩ := hv
  refine ⟨?_, ?_, ?_⟩
  · intro p hneg color ko
    refine apply_move_oob color ko ?_
    unfold inBounds
    omega
  · intro r cc hr1 hr2 hc1 hc2
    have hglen : (b.grid.length : Int) = b.size := by omega
    have hL : b.get ⟨r, cc⟩ = (match pyIndex b.grid r with
        | none => none | some row => (pyIndex row cc).join) := rfl
    have hR : b.get ⟨r + b.size, cc⟩ = (match pyIndex b.grid (r + b.size) with
        | none => none | some row => (pyIndex row cc).join) := rfl
    rw [hL, hR]
    have hwrap : pyIndex b.grid r = pyIndex b.grid (r + b.grid.length) :=
      pyIndex_wrap (by omega) hr2
    rw [hwrap, hglen]
  · intro r cc hr1 hr2 hc1 hc2
    have hrlen : r.toNat < b.grid.length := by omega
    have hrow : b.grid[r.toNat]? = some b.grid[r.toNat] :=
      List.getElem?_eq_some_iff.mpr ⟨hrlen, rfl⟩
    have hrmem : b.grid[r.toNat] ∈ b.grid := List.getElem?_mem hrow
    have hrowlen : (b.grid[r.toNat].length : Int) = b.size := by
      have := h2 _ hrmem
      omega
    have hL : b.get ⟨r, cc⟩ = (pyIndex b.grid[r.toNat] cc).join := by
      show (match pyIndex b.grid r with
            | none => none | some row => (pyIndex row cc).join) = _
      rw [pyIndex_of_range hr1 (by omega), hrow]
    have hR : b.get ⟨r, cc + b.size⟩ =
        (pyIndex b.grid[r.toNat] (cc + b.size)).join := by
      show (match pyIndex b.grid r with
            | none => none | some row => (pyIndex row (cc + b.size)).join) = _
      rw [pyIndex_of_range hr1 (by omega), hrow]
    rw [hL, hR]
    have hwrap : pyIndex b.grid[r.toNat] cc =
        pyIndex b.grid[r.toNat] (cc + b.grid[r.toNat].length) :=
      pyIndex_wrap (by omega) hc2
    rw [hwrap, hrowlen]

theorem claim_C9_witness :
    (⟨2, [[some .white, none], [some .black, none]]⟩ : Board).get ⟨-1, 0⟩ =
      (⟨2, [[some .white, none], [some .black, none]]⟩ : Board).get
        ⟨-1 + (2 : Int), 0⟩ :=
  (claim_C9 ⟨2, [[some .white, none], [some .black, none]]⟩ (by decide)).2.1
    (-1) 0 (by decide) (by decide) (by decide) (by decide)

/-! ## Game state machine lemmas -/

theorem play_terminal {s : GameState} (h : s.is_over = true) (p : Point) :
    s.play p = .ok s := by
  unfold GameState.play
  rw [if_pos h]

theorem pass_terminal {s : GameState} (h : s.is_over = true) :
    s.pass_turn = s := by
  unfold GameState.pass_turn
  rw [if_pos h]

theorem play_of_ok {s : GameState} {p : Point} {r : MoveResult}
    (h : s.is_over = false)
    (hr : apply_move s.board p s.next_player s.ko_forbidden_signature = .ok r) :
    s.play p = .ok
      { board := r.board
        next_player := s.next_player.opponent
        captures_black := if s.next_player = .black
          then s.captures_black + r.captured else s.captures_black
        captures_white := if s.next_player = .black
          then s.captures_white else s.captures_white + r.captured
        ko_forbidden_signature :=
          if r.captured = 1 then some s.board.signature else none
        last_move := some p
        consecutive_passes := 0
        is_over := false
        history := s.history ++ [⟨s.next_player, some p, r.captured⟩] } := by
  unfold GameState.play
  rw [if_neg (by simp [h]), hr]

theorem play_of_error {s : GameState} {p : Point} {e : GoError}
    (h : s.is_over = false)
    (hr : apply_move s.board p s.next_player s.ko_forbidden_signature =
      .error e) :
    s.play p = .error e := by
  unfold GameState.play
  rw [if_neg (by simp [h]), hr]

theorem pass_of_in_progress {s : GameState} (h : s.is_over = false) :
    s.pass_turn =
      { board := s.board
        next_player := s.next_player.opponent
        captures_black := s.captures_black
        captures_white := s.captures_white
        ko_forbidden_signature := none
        last_move := none
        consecutive_passes := s.consecutive_passes + 1
        is_over := decide (2 ≤ s.consecutive_passes + 1)
        history := s.history ++ [⟨s.next_player, none, 0⟩] } := by
  unfold GameState.pass_turn
  rw [if_neg (by simp [h])]

/-- Claim C3: for an in-progress state, a successful `play` records the
pre-move board signature as the ko-forbidden signature exactly when the
move captured one stone (and clears it otherwise) and sets `last_move`;
`pass_turn` clears both the ko signature and `last_move`. -/
theorem claim_C3 (s : GameState) (h : s.is_over = false) :
    (∀ (p : Point) (r : MoveResult) (s' : GameState),
      apply_move s.board p s.next_player s.ko_forbidden_signature = .ok r →
      s.play p = .ok s' →
      ((s'.ko_forbidden_signature = some s.board.signature ↔ r.captured = 1) ∧
       (r.captured ≠ 1 → s'.ko_forbidden_signature = none) ∧
       s'.last_move = some p)) ∧
    (s.pass_turn.ko_forbidden_signature = none ∧
      s.pass_turn.last_move = none) := by
  constructor
  · intro p r s' hr hplay
    rw [play_of_ok h hr] at hplay
    injection hplay with hplay
    subst hplay
    by_cases hc : r.captured = 1
    · simp [hc]
    · simp [hc]
  · rw [pass_of_in_progress h]
    exact ⟨rfl, rfl⟩

theorem claim_C3_witness :
    ((GameState.new 2).pass_turn.ko_forbidden_signature = none ∧
      (GameState.new 2).pass_turn.last_move = none) :=
  (claim_C3 (GameState.new 2) (by decide)).2

/-- Claim C4: a terminal state is absorbing (`play` and `pass_turn`
return it unchanged), and two consecutive passes from an in-progress
state produce a terminal state. -/
theorem claim_C4 (s : GameState) :
    (s.is_over = true → (∀ p, s.play p = .ok s) ∧ s.pass_turn = s) ∧
    (s.is_over = false → (s.pass_turn.pass_turn).is_over = true) := by
  constructor
  · intro h
    exact ⟨fun p => play_terminal h p, pass_terminal h⟩
  · intro h
    by_cases hc : (s.pass_turn).is_over = true
    · rw [pass_terminal hc]
      exact hc
    · have hc' : (s.pass_turn).is_over = false :=
        Bool.eq_false_iff.mpr hc
      rw [pass_of_in_progress hc']
      rw [pass_of_in_progress h]
      simp

theorem claim_C4_witness :
    ((GameState.new 2).pass_turn.pass_turn).is_over = true :=
  (claim_C4 (GameState.new 2)).2 (by decide)

theorem except_isOk_iff {ε α : Type} (e : Except ε α) :
    e.isOk = true ↔ ∃ r, e = .ok r := by
  cases e <;> simp [Except.isOk, Except.toBool]

/-- Claim C5: `legal_moves` is empty on a terminal state; otherwise a
point is in `legal_moves` iff it is empty and `apply_move` succeeds on
it; and every point of `legal_moves`, when played, succeeds. -/
theorem claim_C5 (s : GameState) :
    (s.is_over = true → s.legal_moves = []) ∧
    (s.is_over = false → ∀ p, (p ∈ s.legal_moves ↔
      (s.board.get p = none ∧ ∃ r, apply_move s.board p s.next_player
        s.ko_forbidden_signature = .ok r))) ∧
    (∀ p, p ∈ s.legal_moves → ∃ s', s.play p = .ok s') := by
  have hmem : ∀ p, s.is_over = false → (p ∈ s.legal_moves ↔
      (s.board.get p = none ∧ ∃ r, apply_move s.board p s.next_player
        s.ko_forbidden_signature = .ok r)) := by
    intro p h
    unfold GameState.legal_moves
    rw [if_neg (by simp [h]), List.mem_filter]
    constructor
    · rintro ⟨_, hpred⟩
      have := of_decide_eq_true hpred
      exact ⟨this.1, (except_isOk_iff _).mp this.2⟩
    · rintro ⟨hemp, r, hr⟩
      have hin : inBounds s.board.size p := by
        by_contra hni
        rw [apply_move_oob s.next_player _ hni] at hr
        exact Except.noConfusion hr
      refine ⟨mem_rowMajorPoints.mpr hin, decide_eq_true ?_⟩
      exact ⟨hemp, (except_isOk_iff _).mpr ⟨r, hr⟩⟩
  refine ⟨?_, fun h p => hmem p h, ?_⟩
  · intro h
    unfold GameState.legal_moves
    rw [if_pos h]
  · intro p hp
    have h : s.is_over = false := by
      by_contra hover
      have : s.is_over = true := Bool.not_eq_false _ |>.mp hover
      unfold GameState.legal_moves at hp
      rw [if_pos this] at hp
      exact List.not_mem_nil p hp
    obtain ⟨_, r, hr⟩ := (hmem p h).mp hp
    exact ⟨_, play_of_ok h hr⟩

theorem claim_C5_witness :
    ⟨0, 0⟩ ∈ (GameState.new 2).legal_moves ↔
      ((GameState.new 2).board.get ⟨0, 0⟩ = none ∧
        ∃ r, apply_move (GameState.new 2).board ⟨0, 0⟩
          (GameState.new 2).next_player
          (GameState.new 2).ko_forbidden_signature = .ok r) :=
  (claim_C5 (GameState.new 2)).2.1 (by decide) ⟨0, 0⟩

/-! ## Board construction (claim C8) -/

/-- Claim C8 (counterexample): `Board.empty 1` fails with the Python
builtin `ValueError` — which is not a member of the engine's `GoError`
move-rejection taxonomy; `errors.py` defines no `InvalidSize` error at
all, so the claim that `empty` fails "with the engine error
`InvalidSize`" is false. -/
theorem claim_C8_counterexample :
    Board.empty 1 = .error EngineExn.valueError ∧
      EngineExn.isGoError EngineExn.valueError = false :=
  ⟨by decide, by decide⟩

/-- Claim C8 (amended): `Board.empty size` fails — with the Python
builtin `ValueError`, not an engine `GoError` — for every `size < 2`,
and for every `size ≥ 2` returns a valid board of that size with every
cell empty. -/
theorem claim_C8 (size : Int) :
    (size < 2 → Board.empty size = .error .valueError) ∧
    (2 ≤ size → ∃ b, Board.empty size = .ok b ∧ b.size = size ∧ b.Valid ∧
      ∀ p, b.get p = none) := by
  constructor
  · intro h
    unfold Board.empty
    rw [if_pos h]
  · intro h
    refine ⟨Board.emptyBoard size, ?_, rfl,
      Board.valid_emptyBoard (by omega), Board.get_emptyBoard size⟩
    unfold Board.empty
    rw [if_neg (by omega)]

theorem claim_C8_witness :
    Board.empty 1 = .error .valueError ∧
      (∃ b, Board.empty 3 = .ok b ∧ b.size = 3 ∧ b.Valid ∧
        ∀ p, b.get p = none) :=
  ⟨(claim_C8 1).1 (by decide), (claim_C8 3).2 (by decide)⟩

/-! ## Serialization replay (claims C10 and C7) -/

/-- Claim C10: the replay loop of `dict_to_game` never rejects a history
record whose mover color differs from the current next player — it
silently inserts an extra pass and then applies the record — so the
reconstructed history can be strictly longer than the persisted one
(shown on a one-record history that replays to two plies). -/
theorem claim_C10 :
    (∀ (s : GameState) (m : MoveRecord) (rest : List MoveRecord),
      m.color ≠ s.next_player →
      replayRecords s (m :: rest) =
        (match m.point with
          | none => replayRecords s.pass_turn.pass_turn rest
          | some pt =>
            match s.pass_turn.play pt with
            | .ok s2 => replayRecords s2 rest
            | .error e => .error e)) ∧
    ((dict_to_game ⟨1, 2, true, Color.white, [⟨Color.white, none, 0⟩]⟩
        ).toOption.map (fun r => r.1.history.length) = some 2 ∧
      ([(⟨Color.white, none, 0⟩ : MoveRecord)]).length = 1) := by
  constructor
  · intro s m rest hne
    simp only [replayRecords]
    rw [if_pos (Ne.symm hne)]
  · exact ⟨by decide, rfl⟩

theorem claim_C10_witness :
    replayRecords (GameState.new 2) [⟨Color.white, none, 0⟩] =
      replayRecords (GameState.new 2).pass_turn.pass_turn [] :=
  (claim_C10).1 (GameState.new 2) ⟨Color.white, none, 0⟩ [] (by decide)

theorem replayRecords_append (s : GameState) (l1 l2 : List MoveRecord) :
    replayRecords s (l1 ++ l2) =
      (match replayRecords s l1 with
        | .ok s1 => replayRecords s1 l2
        | .error e => .error e) := by
  induction l1 generalizing s with
  | nil => rfl
  | cons m rest ih =>
    obtain ⟨mc, mp, mcap⟩ := m
    cases mp with
    | none =>
      show replayRecords
          ((if s.next_player ≠ mc then s.pass_turn else s)).pass_turn
          (rest ++ l2) =
        (match replayRecords
            ((if s.next_player ≠ mc then s.pass_turn else s)).pass_turn rest with
          | .ok s1 => replayRecords s1 l2
          | .error e => .error e)
      exact ih _
    | some pt =>
      show (match (if s.next_player ≠ mc then s.pass_turn else s).play pt with
            | .ok s2 => replayRecords s2 (rest ++ l2)
            | .error e => .error e) =
        (match (match (if s.next_player ≠ mc then s.pass_turn else s).play pt with
                | .ok s2 => replayRecords s2 rest
                | .error e => .error e) with
          | .ok s1 => replayRecords s1 l2
          | .error e => .error e)
      cases hplay : (if s.next_player ≠ mc then s.pass_turn else s).play pt with
      | ok s2 => exact ih s2
      | error e => rfl

/-- Replaying the recorded history of any reachable state from the
initial state reproduces that state exactly. -/
theorem replay_history {size : Int} :
    ∀ s, Reachable (GameState.new size) s →
      replayRecords (GameState.new size) s.history = .ok s := by
  intro s h
  induction h with
  | refl => rfl
  | play s p s' hre hplay ih =>
    by_cases hover : s.is_over = true
    · rw [play_terminal hover p] at hplay
      injection hplay with hplay
      subst hplay
      exact ih
    · have hov : s.is_over = false := Bool.eq_false_iff.mpr hover
      unfold GameState.play at hplay
      rw [if_neg (by simp [hov])] at hplay
      cases hr : apply_move s.board p s.next_player s.ko_forbidden_signature with
      | error e =>
        rw [hr] at hplay
        exact Except.noConfusion hplay
      | ok r =>
        rw [hr] at hplay
        injection hplay with hplay
        subst hplay
        show replayRecords (GameState.new size)
          (s.history ++ [⟨s.next_player, some p, r.captured⟩]) = _
        rw [replayRecords_append, ih]
        show replayRecords s [⟨s.next_player, some p, r.captured⟩] = _
        simp only [replayRecords]
        rw [if_neg (by simp)]
        rw [play_of_ok hov hr]
  | pass s hre ih =>
    by_cases hover : s.is_over = true
    · rw [pass_terminal hover]
      exact ih
    · have hov : s.is_over = false := Bool.eq_false_iff.mpr hover
      have hh : (s.pass_turn).history =
          s.history ++ [⟨s.next_player, none, 0⟩] := by
        rw [pass_of_in_progress hov]
      rw [hh, replayRecords_append, ih]
      show replayRecords s [⟨s.next_player, none, 0⟩] = _
      simp only [replayRecords]
      rw [if_neg (by simp)]

/-- Claim C7: serializing any state reachable from `GameState.new size`
with `game_to_dict` and reconstructing it with `dict_to_game` (which
replays the persisted history from `new size`) reproduces the state
exactly — in particular with identical capture counts, board cell
contents and `is_over` flag. -/
theorem claim_C7 (size : Int) (s : GameState) (ai : Bool) (aic : Color)
    (h : Reachable (GameState.new size) s) :
    dict_to_game (game_to_dict s ai aic size) = .ok (s, ai, aic, size) := by
  unfold dict_to_game game_to_dict
  rw [replay_history s h]

theorem claim_C7_witness :
    dict_to_game (game_to_dict (GameState.new 2) true Color.white 2) =
      .ok (GameState.new 2, true, Color.white, 2) :=
  claim_C7 2 (GameState.new 2) true Color.white Reachable.refl

/-! ## Correctness of the territory flood fill -/

/-- A set closed under empty steps swallows everything reachable from
one of its members. -/
theorem closed_reach {b : Board} {v : Finset Point}
    (hcl : ∀ q ∈ v, ∀ x, SpecEmptyStep b q x → x ∈ v) {q r : Point}
    (hq : q ∈ v) (h : SpecEmptyReach b q r) : r ∈ v := by
  induction h with
  | refl => exact hq
  | tail _ hstep ih => exact hcl _ ih _ hstep

theorem territoryFill_grows {b : Board} :
    ∀ (fuel : Nat) (stack : List Point) (visited region : Finset Point),
    region ⊆ visited →
    visited ⊆ (territoryFill b fuel stack visited region).1 ∧
    region ⊆ (territoryFill b fuel stack visited region).2 ∧
    (territoryFill b fuel stack visited region).1 \ visited =
      (territoryFill b fuel stack visited region).2 \ region := by
  intro fuel
  induction fuel with
  | zero =>
    intro stack visited region _
    exact ⟨subset_rfl, subset_rfl, by
      show visited \ visited = region \ region
      simp⟩
  | succ fuel ih =>
    intro stack visited region hrv
    cases stack with
    | nil =>
      exact ⟨subset_rfl, subset_rfl, by
        show visited \ visited = region \ region
        simp⟩
    | cons cur rest =>
      simp only [territoryFill]
      split_ifs with h1 h2
      · exact ih rest visited region hrv
      · exact ih rest visited region hrv
      · have hrv' : insert cur region ⊆ insert cur visited :=
          Finset.insert_subset_insert cur hrv
        obtain ⟨ih1, ih2, ih3⟩ := ih _ (insert cur visited) (insert cur region) hrv'
        refine ⟨(Finset.subset_insert cur visited).trans ih1,
          (Finset.subset_insert cur region).trans ih2, ?_⟩
        have hcur1 : cur ∈ (territoryFill b fuel _ (insert cur visited)
            (insert cur region)).1 := ih1 (Finset.mem_insert_self cur visited)
        have hcur2 : cur ∈ (territoryFill b fuel _ (insert cur visited)
            (insert cur region)).2 := ih2 (Finset.mem_insert_self cur region)
        ext x
        by_cases hx : x = cur
        · subst hx
          simp only [Finset.mem_sdiff]
          constructor
          · intro ⟨_, hxv⟩
            exact ⟨hcur2, fun hxr => hxv (hrv hxr)⟩
          · intro ⟨_, _⟩
            exact ⟨hcur1, h1⟩
        · have hmem3 := Finset.ext_iff.mp ih3 x
          simp only [Finset.mem_sdiff, Finset.mem_insert] at hmem3 ⊢
          constructor
          · intro ⟨hx1, hxv⟩
            have := hmem3.mp ⟨hx1, fun hc => (hc.elim hx hxv)⟩
            exact ⟨this.1, fun hxr => this.2 (Or.inr hxr)⟩
          · intro ⟨hx2, hxr⟩
            have := hmem3.mpr ⟨hx2, fun hc => (hc.elim hx hxr)⟩
            exact ⟨this.1, fun hxv => this.2 (Or.inr hxv)⟩

theorem territoryFill_sound {b : Board} {p : Point} :
    ∀ (fuel : Nat) (stack : List Point) (visited region : Finset Point),
    (∀ q ∈ stack, SpecEmptyReach b p q) →
    (∀ q ∈ region, SpecEmptyReach b p q) →
    ∀ q ∈ (territoryFill b fuel stack visited region).2,
      SpecEmptyReach b p q := by
  intro fuel
  induction fuel with
  | zero => intro stack visited region _ hr; exact hr
  | succ fuel ih =>
    intro stack visited region hstack hregion
    cases stack with
    | nil => exact hregion
    | cons cur rest =>
      simp only [territoryFill]
      split_ifs with h1 h2
      · exact ih rest visited region
          (fun q hq => hstack q (List.mem_cons_of_mem cur hq)) hregion
      · exact ih rest visited region
          (fun q hq => hstack q (List.mem_cons_of_mem cur hq)) hregion
      · have hcur := hstack cur (List.mem_cons_self cur rest)
        refine ih _ _ _ ?_ ?_
        · intro q hq
          rcases List.mem_append.mp hq with hq | hq
          · obtain ⟨hqnb, hqprop⟩ := List.mem_filter.mp hq
            have hq2 := of_decide_eq_true hqprop
            exact hcur.tail ⟨hqnb, hq2.2⟩
          · exact hstack q (List.mem_cons_of_mem cur hq)
        · intro q hq
          rcases Finset.mem_insert.mp hq with rfl | hq
          · exact hcur
          · exact hregion q hq

theorem territoryFill_complete {b : Board} {p : Point}
    (hpin : inBounds b.size p) (hpe : b.get p = none) :
    ∀ (fuel : Nat) (stack : List Point) (visited region : Finset Point),
    (∀ q ∈ stack, SpecEmptyReach b p q) →
    (∀ q, SpecEmptyReach b p q → q ∈ visited → q ∈ region) →
    (∀ r ∈ region, ∀ q ∈ iter_neighbors r b.size, b.get q = none →
      q ∈ region ∨ q ∈ stack) →
    (p ∈ region ∨ p ∈ stack) →
    (stack.length + 5 * ((boardFinset b.size) \ visited).card ≤ fuel) →
    p ∈ (territoryFill b fuel stack visited region).2 ∧
    (∀ r ∈ (territoryFill b fuel stack visited region).2,
      ∀ q ∈ iter_neighbors r b.size, b.get q = none →
        q ∈ (territoryFill b fuel stack visited region).2) := by
  intro fuel
  induction fuel with
  | zero =>
    intro stack visited region hstack hdisj hfront hstart hfuel
    have hse : stack = [] := by
      cases stack with
      | nil => rfl
      | cons q rest => simp at hfuel
    subst hse
    simp only [territoryFill]
    refine ⟨hstart.resolve_right (by simp), ?_⟩
    intro r hr q hq hqe
    exact (hfront r hr q hq hqe).resolve_right (by simp)
  | succ fuel ih =>
    intro stack visited region hstack hdisj hfront hstart hfuel
    cases stack with
    | nil =>
      simp only [territoryFill]
      refine ⟨hstart.resolve_right (by simp), ?_⟩
      intro r hr q hq hqe
      exact (hfront r hr q hq hqe).resolve_right (by simp)
    | cons cur rest =>
      have hcur := hstack cur (List.mem_cons_self cur rest)
      have hcurb := SpecEmptyReach.inBounds_and_empty hcur hpin hpe
      simp only [territoryFill]
      split_ifs with h1 h2
      · have hcreg : cur ∈ region := hdisj cur hcur h1
        refine ih rest visited region
          (fun q hq => hstack q (List.mem_cons_of_mem cur hq)) hdisj ?_ ?_ ?_
        · intro r hr q hq hqe
          rcases hfront r hr q hq hqe with h | h
          · exact Or.inl h
          · rcases List.mem_cons.mp h with rfl | h
            · exact Or.inl hcreg
            · exact Or.inr h
        · rcases hstart with h | h
          · exact Or.inl h
          · rcases List.mem_cons.mp h with rfl | h
            · exact Or.inl hcreg
            · exact Or.inr h
        · simp only [List.length_cons] at hfuel
          omega
      · exact absurd hcurb.2 h2
      · have hcD : cur ∈ (boardFinset b.size) \ visited :=
          Finset.mem_sdiff.mpr ⟨mem_boardFinset.mpr hcurb.1, h1⟩
        have hcard1 : 1 ≤ ((boardFinset b.size) \ visited).card :=
          Finset.card_pos.mpr ⟨cur, hcD⟩
        have hsdiff : (boardFinset b.size) \ (insert cur visited) =
            ((boardFinset b.size) \ visited).erase cur := by
          ext x
          simp only [Finset.mem_sdiff, Finset.mem_insert, Finset.mem_erase]
          tauto
        have hcard : ((boardFinset b.size) \ (insert cur visited)).card =
            ((boardFinset b.size) \ visited).card - 1 := by
          rw [hsdiff, Finset.card_erase_of_mem hcD]
        refine ih _ _ _ ?_ ?_ ?_ ?_ ?_
        · intro q hq
          rcases List.mem_append.mp hq with hq | hq
          · obtain ⟨hqnb, hqprop⟩ := List.mem_filter.mp hq
            have hq2 := of_decide_eq_true hqprop
            exact hcur.tail ⟨hqnb, hq2.2⟩
          · exact hstack q (List.mem_cons_of_mem cur hq)
        · intro q hq hqv
          rcases Finset.mem_insert.mp hqv with rfl | hqv
          · exact Finset.mem_insert_self q region
          · exact Finset.mem_insert_of_mem (hdisj q hq hqv)
        · intro r hr q hq hqe
          rcases Finset.mem_insert.mp hr with rfl | hr
          · by_cases hqv : q ∈ insert r visited
            · refine Or.inl ?_
              have hqreach : SpecEmptyReach b p q := hcur.tail ⟨hq, hqe⟩
              rcases Finset.mem_insert.mp hqv with rfl | hqv
              · exact Finset.mem_insert_self q region
              · exact Finset.mem_insert_of_mem (hdisj q hqreach hqv)
            · refine Or.inr (List.mem_append.mpr (Or.inl ?_))
              exact List.mem_filter.mpr ⟨hq, decide_eq_true ⟨hqv, hqe⟩⟩
          · rcases hfront r hr q hq hqe with h | h
            · exact Or.inl (Finset.mem_insert_of_mem h)
            · rcases List.mem_cons.mp h with rfl | h
              · exact Or.inl (Finset.mem_insert_self q region)
              · exact Or.inr (List.mem_append.mpr (Or.inr h))
        · rcases hstart with h | h
          · exact Or.inl (Finset.mem_insert_of_mem h)
          · rcases List.mem_cons.mp h with rfl | h
            · exact Or.inl (Finset.mem_insert_self p region)
            · exact Or.inr (List.mem_append.mpr (Or.inr h))
        · rw [hcard]
          have hpush : ((iter_neighbors cur b.size).filter
              (fun nb => nb ∉ insert cur visited ∧ b.get nb = none)).length ≤ 4 :=
            (List.length_filter_le _ _).trans (length_iter_neighbors_le cur b.size)
          rw [List.length_append]
          simp only [List.length_cons] at hfuel
          omega

/-- The territory flood fill starting at a fresh empty in-bounds point
computes exactly its maximal empty region, and adds exactly that region
to the shared visited set. -/
theorem territoryFill_spec {b : Board} {p : Point} {V0 : Finset Point}
    (hpin : inBounds b.size p) (hpe : b.get p = none)
    (hdisj : ∀ q, SpecEmptyReach b p q → q ∉ V0) :
    (∀ q, q ∈ (territoryFill b (galFuel b) [p] V0 ∅).2 ↔
      SpecEmptyReach b p q) ∧
    (territoryFill b (galFuel b) [p] V0 ∅).1 =
      V0 ∪ (territoryFill b (galFuel b) [p] V0 ∅).2 := by
  have hstack0 : ∀ q ∈ [p], SpecEmptyReach b p q := by
    intro q hq
    rcases List.mem_singleton.mp hq with rfl
    exact Relation.ReflTransGen.refl
  have hcomp := territoryFill_complete hpin hpe (galFuel b) [p] V0 ∅
    hstack0
    (fun q hq hqv => absurd hqv (hdisj q hq))
    (by simp) (Or.inr (List.mem_singleton.mpr rfl))
    (by simp only [List.length_singleton]
        have h1 : ((boardFinset b.size) \ V0).card ≤ (boardFinset b.size).card :=
          Finset.card_le_card (Finset.sdiff_subset)
        have h2 := card_boardFinset_le b.size
        have h3 : 5 * ((boardFinset b.size) \ V0).card ≤
            5 * (b.size.toNat * b.size.toNat) :=
          Nat.mul_le_mul_left 5 (h1.trans h2)
        have h4 : 5 * (b.size.toNat * b.size.toNat) =
            5 * b.size.toNat * b.size.toNat := (Nat.mul_assoc 5 _ _).symm
        unfold galFuel
        omega)
  have hsound := territoryFill_sound (galFuel b) [p] V0 ∅ hstack0 (by simp)
  have hiff : ∀ q, q ∈ (territoryFill b (galFuel b) [p] V0 ∅).2 ↔
      SpecEmptyReach b p q := by
    intro q
    constructor
    · exact hsound q
    · intro hq
      induction hq with
      | refl => exact hcomp.1
      | tail hab hbc ihq => exact hcomp.2 _ ihq _ hbc.1 hbc.2
  refine ⟨hiff, ?_⟩
  obtain ⟨hg1, _, hg3⟩ := territoryFill_grows (galFuel b) [p] V0 ∅
    (Finset.empty_subset V0)
  rw [Finset.sdiff_empty] at hg3
  ext x
  rw [Finset.mem_union]
  constructor
  · intro hx
    by_cases hxv : x ∈ V0
    · exact Or.inl hxv
    · refine Or.inr ?_
      have hmem : x ∈ (territoryFill b (galFuel b) [p] V0 ∅).1 \ V0 :=
        Finset.mem_sdiff.mpr ⟨hx, hxv⟩
      rw [hg3] at hmem
      exact hmem
  · intro hx
    rcases hx with hx | hx
    · exact hg1 hx
    · have : x ∈ (territoryFill b (galFuel b) [p] V0 ∅).1 \ V0 := by
        rw [hg3]
        exact hx
      exact (Finset.mem_sdiff.mp this).1

/-! ## Region ownership and counting -/

theorem borderColors_congr {b : Board} {p q : Point}
    (hpin : inBounds b.size p) (hpe : b.get p = none)
    (h : SpecEmptyReach b p q) :
    specBorderColors b q = specBorderColors b p := by
  ext c
  simp only [specBorderColors, Set.mem_setOf_eq]
  constructor
  · rintro ⟨r, hqr, rest⟩
    exact ⟨r, Relation.ReflTransGen.trans h hqr, rest⟩
  · rintro ⟨r, hpr, rest⟩
    exact ⟨r, Relation.ReflTransGen.trans (SpecEmptyReach.symm h hpin hpe) hpr,
      rest⟩

theorem black_set_ne_white_set :
    ({Color.black} : Set Color) ≠ ({Color.white} : Set Color) := by
  intro h
  have h1 : Color.black ∈ ({Color.black} : Set Color) := rfl
  rw [h] at h1
  exact absurd (Set.mem_singleton_iff.mp h1) (by decide)

theorem region_owner_spec_iff {b : Board} {p : Point} {R : Finset Point}
    (hiff : ∀ q, q ∈ R ↔ SpecEmptyReach b p q) :
    (region_owner b R = some Color.black ↔
      specBorderColors b p = {Color.black}) ∧
    (region_owner b R = some Color.white ↔
      specBorderColors b p = {Color.white}) ∧
    (region_owner b R = none ↔
      (specBorderColors b p ≠ {Color.black} ∧
        specBorderColors b p ≠ {Color.white})) := by
  have hmem : ∀ c : Color, (c ∈ R.biUnion (fun r =>
      ((iter_neighbors r b.size).filterMap (fun nb => b.get nb)).toFinset)) ↔
      c ∈ specBorderColors b p := by
    intro c
    rw [Finset.mem_biUnion]
    simp only [List.mem_toFinset, List.mem_filterMap]
    constructor
    · rintro ⟨r, hr, nb, hnb, hget⟩
      exact ⟨r, (hiff r).mp hr, nb, hnb, hget⟩
    · rintro ⟨r, hreach, nb, hnb, hget⟩
      exact ⟨r, (hiff r).mpr hreach, nb, hnb, hget⟩
  have key : ∀ c0 : Color, ((R.biUnion (fun r =>
      ((iter_neighbors r b.size).filterMap (fun nb => b.get nb)).toFinset)) =
        {c0}) ↔ (specBorderColors b p = {c0}) := by
    intro c0
    constructor
    · intro h
      ext c
      rw [← hmem c, h]
      simp
    · intro h
      ext c
      rw [hmem c, h]
      simp
  simp only [region_owner]
  split_ifs with hb hw
  · have hspec := (key Color.black).mp hb
    refine ⟨iff_of_true rfl hspec, iff_of_false (by simp) ?_,
      iff_of_false (by simp) ?_⟩
    · intro hws
      exact black_set_ne_white_set (hspec ▸ hws)
    · rintro ⟨hnb, _⟩
      exact hnb hspec
  · have hspec := (key Color.white).mp hw
    refine ⟨iff_of_false (by simp) ?_, iff_of_true rfl hspec,
      iff_of_false (by simp) ?_⟩
    · intro hbs
      exact black_set_ne_white_set (hbs.symm.trans hspec)
    · rintro ⟨_, hnw⟩
      exact hnw hspec
  · refine ⟨iff_of_false (by simp) (fun hc => hb ((key Color.black).mpr hc)),
      iff_of_false (by simp) (fun hc => hw ((key Color.white).mpr hc)),
      iff_of_true rfl ⟨fun hc => hb ((key Color.black).mpr hc),
        fun hc => hw ((key Color.white).mpr hc)⟩⟩

theorem finite_filter_finset (v : Finset Point) (P : Point → Prop) :
    {q | q ∈ v ∧ P q}.Finite :=
  v.finite_toSet.subset (fun _ hq => hq.1)

theorem ncard_union_split (v R : Finset Point) (hdis : ∀ q ∈ R, q ∉ v)
    (P : Point → Prop) :
    Set.ncard {q | q ∈ v ∪ R ∧ P q} =
      Set.ncard {q | q ∈ v ∧ P q} + Set.ncard {q | q ∈ R ∧ P q} := by
  have hseteq : {q | q ∈ v ∪ R ∧ P q} =
      {q | q ∈ v ∧ P q} ∪ {q | q ∈ R ∧ P q} := by
    ext q
    simp only [Set.mem_setOf_eq, Set.mem_union, Finset.mem_union]
    tauto
  rw [hseteq, Set.ncard_union_eq ?_ (finite_filter_finset v P)
    (finite_filter_finset R P)]
  rw [Set.disjoint_left]
  rintro q ⟨hqv, _⟩ ⟨hqR, _⟩
  exact hdis q hqR hqv

theorem ncard_of_all (R : Finset Point) (P : Point → Prop)
    (h : ∀ q ∈ R, P q) : Set.ncard {q | q ∈ R ∧ P q} = R.card := by
  have heq : {q | q ∈ R ∧ P q} = ↑R := by
    ext q
    simp only [Set.mem_setOf_eq, Finset.mem_coe]
    exact ⟨fun hq => hq.1, fun hq => ⟨hq, h q hq⟩⟩
  rw [heq, Set.ncard_coe_Finset]

theorem ncard_of_none (R : Finset Point) (P : Point → Prop)
    (h : ∀ q ∈ R, ¬ P q) : Set.ncard {q | q ∈ R ∧ P q} = 0 := by
  have heq : {q | q ∈ R ∧ P q} = ∅ := by
    ext q
    simp only [Set.mem_setOf_eq, Set.mem_empty_iff_false, iff_false, not_and]
    exact h q
  rw [heq, Set.ncard_empty]

/-- The outer row-major scan of `evaluate_territory`: the visited set
stays the union of complete empty regions, every processed empty point
is in it, and the three counters count exactly the empty points whose
region border is all-black, all-white, or neither. -/
theorem territory_fold_spec {b : Board} :
    ∀ (pts : List Point) (v : Finset Point) (tb tw nt : Nat),
    (∀ q ∈ pts, inBounds b.size q) →
    (∀ q ∈ v, inBounds b.size q ∧ b.get q = none) →
    (∀ q ∈ v, ∀ x, SpecEmptyStep b q x → x ∈ v) →
    tb = Set.ncard {q | q ∈ v ∧ specBorderColors b q = {Color.black}} →
    tw = Set.ncard {q | q ∈ v ∧ specBorderColors b q = {Color.white}} →
    nt = Set.ncard {q | q ∈ v ∧ specBorderColors b q ≠ {Color.black} ∧
      specBorderColors b q ≠ {Color.white}} →
    tb + tw + nt = v.card →
    (∀ q ∈ v, q ∈ (pts.foldl (territoryStep b) (v, tb, tw, nt)).1) ∧
    (∀ q ∈ pts, b.get q = none →
      q ∈ (pts.foldl (territoryStep b) (v, tb, tw, nt)).1) ∧
    (∀ q ∈ (pts.foldl (territoryStep b) (v, tb, tw, nt)).1,
      inBounds b.size q ∧ b.get q = none) ∧
    (∀ q ∈ (pts.foldl (territoryStep b) (v, tb, tw, nt)).1,
      ∀ x, SpecEmptyStep b q x →
        x ∈ (pts.foldl (territoryStep b) (v, tb, tw, nt)).1) ∧
    (pts.foldl (territoryStep b) (v, tb, tw, nt)).2.1 =
      Set.ncard {q | q ∈ (pts.foldl (territoryStep b) (v, tb, tw, nt)).1 ∧
        specBorderColors b q = {Color.black}} ∧
    (pts.foldl (territoryStep b) (v, tb, tw, nt)).2.2.1 =
      Set.ncard {q | q ∈ (pts.foldl (territoryStep b) (v, tb, tw, nt)).1 ∧
        specBorderColors b q = {Color.white}} ∧
    (pts.foldl (territoryStep b) (v, tb, tw, nt)).2.2.2 =
      Set.ncard {q | q ∈ (pts.foldl (territoryStep b) (v, tb, tw, nt)).1 ∧
        specBorderColors b q ≠ {Color.black} ∧
        specBorderColors b q ≠ {Color.white}} ∧
    (pts.foldl (territoryStep b) (v, tb, tw, nt)).2.1 +
      (pts.foldl (territoryStep b) (v, tb, tw, nt)).2.2.1 +
      (pts.foldl (territoryStep b) (v, tb, tw, nt)).2.2.2 =
      (pts.foldl (territoryStep b) (v, tb, tw, nt)).1.card := by
  intro pts
  induction pts with
  | nil =>
    intro v tb tw nt _ hvp hvc htb htw hnt hsum
    exact ⟨fun q hq => hq, by simp, hvp, hvc, htb, htw, hnt, hsum⟩
  | cons p0 rest ih =>
    intro v tb tw nt hl hvp hvc htb htw hnt hsum
    have hrest : ∀ q ∈ rest, inBounds b.size q :=
      fun q hq => hl q (List.mem_cons_of_mem p0 hq)
    rw [List.foldl_cons]
    by_cases hp0v : p0 ∈ v
    · have hstep : territoryStep b (v, tb, tw, nt) p0 = (v, tb, tw, nt) := by
        simp only [territoryStep]
        rw [if_pos hp0v]
      rw [hstep]
      obtain ⟨o1, o2, o3, o4, o5, o6, o7, o8⟩ :=
        ih v tb tw nt hrest hvp hvc htb htw hnt hsum
      refine ⟨o1, ?_, o3, o4, o5, o6, o7, o8⟩
      intro q hq hqe
      rcases List.mem_cons.mp hq with rfl | hq
      · exact o1 q hp0v
      · exact o2 q hq hqe
    · by_cases hp0e : b.get p0 = none
      · have hpin : inBounds b.size p0 := hl p0 (List.mem_cons_self p0 rest)
        have hdisj : ∀ q, SpecEmptyReach b p0 q → q ∉ v := by
          intro q hq hqv
          exact hp0v (closed_reach hvc hqv (SpecEmptyReach.symm hq hpin hp0e))
        obtain ⟨hiff, hv'⟩ := territoryFill_spec hpin hp0e hdisj
        set R := (territoryFill b (galFuel b) [p0] v ∅).2 with hR
        have hRv : ∀ q ∈ R, q ∉ v := fun q hq => hdisj q ((hiff q).mp hq)
        have hRprops : ∀ q ∈ R, inBounds b.size q ∧ b.get q = none :=
          fun q hq =>
            SpecEmptyReach.inBounds_and_empty ((hiff q).mp hq) hpin hp0e
        have hRborder : ∀ q ∈ R,
            specBorderColors b q = specBorderColors b p0 :=
          fun q hq => borderColors_congr hpin hp0e ((hiff q).mp hq)
        have hp0R : p0 ∈ R := (hiff p0).mpr Relation.ReflTransGen.refl
        have hvp' : ∀ q ∈ v ∪ R, inBounds b.size q ∧ b.get q = none := by
          intro q hq
          rcases Finset.mem_union.mp hq with hq | hq
          · exact hvp q hq
          · exact hRprops q hq
        have hvc' : ∀ q ∈ v ∪ R, ∀ x, SpecEmptyStep b q x → x ∈ v ∪ R := by
          intro q hq x hx
          rcases Finset.mem_union.mp hq with hq | hq
          · exact Finset.mem_union_left R (hvc q hq x hx)
          · refine Finset.mem_union_right v ?_
            exact (hiff x).mpr (Relation.ReflTransGen.tail ((hiff q).mp hq) hx)
        have hcard' : (v ∪ R).card = v.card + R.card :=
          Finset.card_union_of_disjoint
            (Finset.disjoint_left.mpr (fun {a} hav haR => hRv a haR hav))
        have howner := region_owner_spec_iff hiff
        by_cases hB : specBorderColors b p0 = {Color.black}
        · have hown : region_owner b R = some Color.black := howner.1.mpr hB
          have hstep : territoryStep b (v, tb, tw, nt) p0 =
              (v ∪ R, tb + R.card, tw, nt) := by
            simp only [territoryStep]
            rw [if_neg hp0v, if_neg (fun hc => hc hp0e), ← hR, hown, hv']
          rw [hstep]
          have htb' : tb + R.card = Set.ncard {q | q ∈ v ∪ R ∧
              specBorderColors b q = {Color.black}} := by
            rw [ncard_union_split v R hRv, ← htb,
              ncard_of_all R _ (fun q hq => (hRborder q hq).trans hB)]
          have htw' : tw = Set.ncard {q | q ∈ v ∪ R ∧
              specBorderColors b q = {Color.white}} := by
            rw [ncard_union_split v R hRv, ← htw,
              ncard_of_none R _ (fun q hq hc =>
                black_set_ne_white_set
                  (hB.symm.trans ((hRborder q hq).symm.trans hc)))]
            omega
          have hnt' : nt = Set.ncard {q | q ∈ v ∪ R ∧
              specBorderColors b q ≠ {Color.black} ∧
              specBorderColors b q ≠ {Color.white}} := by
            rw [ncard_union_split v R hRv, ← hnt,
              ncard_of_none R _ (fun q hq hc =>
                hc.1 ((hRborder q hq).trans hB))]
            omega
          have hsum' : (tb + R.card) + tw + nt = (v ∪ R).card := by
            rw [hcard']
            omega
          obtain ⟨o1, o2, o3, o4, o5, o6, o7, o8⟩ :=
            ih (v ∪ R) (tb + R.card) tw nt hrest hvp' hvc' htb' htw' hnt' hsum'
          refine ⟨fun q hq => o1 q (Finset.mem_union_left R hq), ?_,
            o3, o4, o5, o6, o7, o8⟩
          intro q hq hqe
          rcases List.mem_cons.mp hq with rfl | hq
          · exact o1 q (Finset.mem_union_right v hp0R)
          · exact o2 q hq hqe
        · by_cases hW : specBorderColors b p0 = {Color.white}
          · have hown : region_owner b R = some Color.white := howner.2.1.mpr hW
            have hstep : territoryStep b (v, tb, tw, nt) p0 =
                (v ∪ R, tb, tw + R.card, nt) := by
              simp only [territoryStep]
              rw [if_neg hp0v, if_neg (fun hc => hc hp0e), ← hR, hown, hv']
            rw [hstep]
            have htb' : tb = Set.ncard {q | q ∈ v ∪ R ∧
                specBorderColors b q = {Color.black}} := by
              rw [ncard_union_split v R hRv, ← htb,
                ncard_of_none R _ (fun q hq hc =>
                  hB ((hRborder q hq).symm.trans hc))]
              omega
            have htw' : tw + R.card = Set.ncard {q | q ∈ v ∪ R ∧
                specBorderColors b q = {Color.white}} := by
              rw [ncard_union_split v R hRv, ← htw,
                ncard_of_all R _ (fun q hq => (hRborder q hq).trans hW)]
            have hnt' : nt = Set.ncard {q | q ∈ v ∪ R ∧
                specBorderColors b q ≠ {Color.black} ∧
                specBorderColors b q ≠ {Color.white}} := by
              rw [ncard_union_split v R hRv, ← hnt,
                ncard_of_none R _ (fun q hq hc =>
                  hc.2 ((hRborder q hq).trans hW))]
              omega
            have hsum' : tb + (tw + R.card) + nt = (v ∪ R).card := by
              rw [hcard']
              omega
            obtain ⟨o1, o2, o3, o4, o5, o6, o7, o8⟩ :=
              ih (v ∪ R) tb (tw + R.card) nt hrest hvp' hvc' htb' htw' hnt'
                hsum'
            refine ⟨fun q hq => o1 q (Finset.mem_union_left R hq), ?_,
              o3, o4, o5, o6, o7, o8⟩
            intro q hq hqe
            rcases List.mem_cons.mp hq with rfl | hq
            · exact o1 q (Finset.mem_union_right v hp0R)
            · exact o2 q hq hqe
          · have hown : region_owner b R = none := howner.2.2.mpr ⟨hB, hW⟩
            have hstep : territoryStep b (v, tb, tw, nt) p0 =
                (v ∪ R, tb, tw, nt + R.card) := by
              simp only [territoryStep]
              rw [if_neg hp0v, if_neg (fun hc => hc hp0e), ← hR, hown, hv']
            rw [hstep]
            have htb' : tb = Set.ncard {q | q ∈ v ∪ R ∧
                specBorderColors b q = {Color.black}} := by
              rw [ncard_union_split v R hRv, ← htb,
                ncard_of_none R _ (fun q hq hc =>
                  hB ((hRborder q hq).symm.trans hc))]
              omega
            have htw' : tw = Set.ncard {q | q ∈ v ∪ R ∧
                specBorderColors b q = {Color.white}} := by
              rw [ncard_union_split v R hRv, ← htw,
                ncard_of_none R _ (fun q hq hc =>
                  hW ((hRborder q hq).symm.trans hc))]
              omega
            have hnt' : nt + R.card = Set.ncard {q | q ∈ v ∪ R ∧
                specBorderColors b q ≠ {Color.black} ∧
                specBorderColors b q ≠ {Color.white}} := by
              rw [ncard_union_split v R hRv, ← hnt,
                ncard_of_all R _ (fun q hq =>
                  ⟨fun hc => hB ((hRborder q hq).symm.trans hc),
                   fun hc => hW ((hRborder q hq).symm.trans hc)⟩)]
            have hsum' : tb + tw + (nt + R.card) = (v ∪ R).card := by
              rw [hcard']
              omega
            obtain ⟨o1, o2, o3, o4, o5, o6, o7, o8⟩ :=
              ih (v ∪ R) tb tw (nt + R.card) hrest hvp' hvc' htb' htw' hnt'
                hsum'
            refine ⟨fun q hq => o1 q (Finset.mem_union_left R hq), ?_,
              o3, o4, o5, o6, o7, o8⟩
            intro q hq hqe
            rcases List.mem_cons.mp hq with rfl | hq
            · exact o1 q (Finset.mem_union_right v hp0R)
            · exact o2 q hq hqe
      · have hstep : territoryStep b (v, tb, tw, nt) p0 = (v, tb, tw, nt) := by
          simp only [territoryStep]
          rw [if_neg hp0v, if_pos hp0e]
        rw [hstep]
        obtain ⟨o1, o2, o3, o4, o5, o6, o7, o8⟩ :=
          ih v tb tw nt hrest hvp hvc htb htw hnt hsum
        refine ⟨o1, ?_, o3, o4, o5, o6, o7, o8⟩
        intro q hq hqe
        rcases List.mem_cons.mp hq with rfl | hq
        · exact absurd hqe hp0e
        · exact o2 q hq hqe

/-- Claim C6: `evaluate_territory` partitions the empty points into
maximal 4-connected regions and credits a point to BLACK (resp. WHITE)
exactly when its region's adjacent stone colors are exactly `{BLACK}`
(resp. `{WHITE}`), counting it neutral otherwise, so the three tallies
sum to the number of empty points; and `score` adds capture counts to
territory with no komi. -/
theorem claim_C6 (b : Board) :
    ((evaluate_territory b).territory_black =
      Set.ncard {q | inBounds b.size q ∧ b.get q = none ∧
        specBorderColors b q = {Color.black}}) ∧
    ((evaluate_territory b).territory_white =
      Set.ncard {q | inBounds b.size q ∧ b.get q = none ∧
        specBorderColors b q = {Color.white}}) ∧
    ((evaluate_territory b).neutral =
      Set.ncard {q | inBounds b.size q ∧ b.get q = none ∧
        specBorderColors b q ≠ {Color.black} ∧
        specBorderColors b q ≠ {Color.white}}) ∧
    ((evaluate_territory b).territory_black +
      (evaluate_territory b).territory_white +
      (evaluate_territory b).neutral =
      ((boardFinset b.size).filter (fun q => b.get q = none)).card) ∧
    (∀ s : GameState,
      s.score.score_black =
        (evaluate_territory s.board).territory_black + s.captures_black ∧
      s.score.score_white =
        (evaluate_territory s.board).territory_white + s.captures_white) := by
  obtain ⟨o1, o2, o3, o4, o5, o6, o7, o8⟩ :=
    territory_fold_spec (b := b) (rowMajorPoints b.size) ∅ 0 0 0
      (fun q hq => mem_rowMajorPoints.mp hq)
      (by simp)
      (by simp)
      ((ncard_of_none ∅ _ (by simp)).symm)
      ((ncard_of_none ∅ _ (by simp)).symm)
      ((ncard_of_none ∅ _ (by simp)).symm)
      (by simp)
  have hveq : ((rowMajorPoints b.size).foldl (territoryStep b) (∅, 0, 0, 0)).1 =
      (boardFinset b.size).filter (fun q => b.get q = none) := by
    ext q
    rw [Finset.mem_filter, mem_boardFinset]
    constructor
    · intro hq
      exact (o3 q hq)
    · rintro ⟨hqb, hqe⟩
      exact o2 q (mem_rowMajorPoints.mpr hqb) hqe
  have hset : ∀ P : Point → Prop,
      {q | q ∈ ((rowMajorPoints b.size).foldl (territoryStep b)
        (∅, 0, 0, 0)).1 ∧ P q} =
      {q | inBounds b.size q ∧ b.get q = none ∧ P q} := by
    intro P
    ext q
    simp only [Set.mem_setOf_eq, hveq, Finset.mem_filter, mem_boardFinset]
    tauto
  have e1 : (evaluate_territory b).territory_black =
      ((rowMajorPoints b.size).foldl (territoryStep b) (∅, 0, 0, 0)).2.1 := rfl
  have e2 : (evaluate_territory b).territory_white =
      ((rowMajorPoints b.size).foldl (territoryStep b)
        (∅, 0, 0, 0)).2.2.1 := rfl
  have e3 : (evaluate_territory b).neutral =
      ((rowMajorPoints b.size).foldl (territoryStep b)
        (∅, 0, 0, 0)).2.2.2 := rfl
  refine ⟨?_, ?_, ?_, ?_, ?_⟩
  · rw [e1, o5, hset]
  · rw [e2, o6, hset]
  · rw [e3, o7, hset]
  · rw [e1, e2, e3, o8, hveq]
  · intro s
    exact ⟨rfl, rfl⟩

end GoGame
